import Mathlib

/-!
Verification of the NQS variational Monte Carlo sampler (Carleo-Troyer code):
shallow embedding of the wave-function engine (`nqs.cc`), the Metropolis
sampler and binning estimator (`sampler.cc`) and the lattice Hamiltonians
(`heisenberg1d.cc`, `heisenberg2d.cc`, `ising1d.cc`), together with proofs
about the lookup-table maintenance, amplitude ratios, sweep accounting,
acceptance probabilities, `lncosh`, Hamiltonian diagonals and the estimator.

`double` is modelled as `ℝ`, `std::complex<double>` as `ℂ`, spin values as
`ℤ`, and a spin configuration as a function `ℕ → ℤ` (the C++ code only ever
reads indices below the configured size).
-/

namespace QANN

/-- The RBM wave-function data of class `Nqs` (`nqs.cc`): `nv` visible units,
`nh` hidden units, visible bias `a`, hidden bias `b`, weights `W` (row `v`,
column `h`). -/
structure Nqs where
  nv : ℕ
  nh : ℕ
  a : ℕ → ℂ
  b : ℕ → ℂ
  W : ℕ → ℕ → ℂ

/-- `Nqs::lncosh(double)` (`nqs.cc` lines 196-204): `log (cosh |x|)` for
`|x| ≤ 12`, and the asymptotic form `|x| - log 2` beyond the cutoff. -/
noncomputable def lncoshR (x : ℝ) : ℝ :=
  if |x| ≤ 12 then Real.log (Real.cosh |x|) else |x| - Real.log 2

/-- `Nqs::lncosh(std::complex<double>)` (`nqs.cc` lines 209-217): real part by
the real `lncosh`, plus `log (cos xi + i tanh xr sin xi)`. -/
noncomputable def lncoshC (z : ℂ) : ℂ :=
  (lncoshR z.re : ℂ) +
    Complex.log ⟨Real.cos z.im, Real.tanh z.re * Real.sin z.im⟩

/-- `Nqs::InitLt` (`nqs.cc` lines 123-133): the lookup-table entry of hidden
unit `h`, fully recomputed from the configuration:
`Lt[h] = b[h] + Σ_v state[v]·W[v][h]`. -/
noncomputable def initLt (n : Nqs) (s : ℕ → ℤ) (h : ℕ) : ℂ :=
  n.b h + ∑ v ∈ Finset.range n.nv, (s v : ℂ) * n.W v h

/-- `Nqs::UpdateLt` (`nqs.cc` lines 137-147): for every hidden unit `h`,
`Lt[h] -= 2*state[flip]*W[flip][h]` for each flip in the list (the early
return for an empty flip list coincides with subtracting an empty sum). -/
noncomputable def updateLt (n : Nqs) (s : ℕ → ℤ) (flips : List ℕ) (Lt : ℕ → ℂ) :
    ℕ → ℂ :=
  fun h => Lt h - (flips.map (fun f => 2 * (s f : ℂ) * n.W f h)).sum

/-- The configuration mutation of an accepted move (`sampler.cc` lines
189-191): `state[flip] *= -1` for each listed site, in order. -/
def applyFlips (s : ℕ → ℤ) (flips : List ℕ) : ℕ → ℤ :=
  flips.foldl (fun st f => Function.update st f (-(st f))) s

/-- `Nqs::LogVal` (`nqs.cc` lines 65-85): logarithm of the amplitude,
`Σ_v a[v]·state[v] + Σ_h lncosh(b[h] + Σ_v state[v]·W[v][h])`. -/
noncomputable def logVal (n : Nqs) (s : ℕ → ℤ) : ℂ :=
  (∑ v ∈ Finset.range n.nv, n.a v * (s v : ℂ)) +
    ∑ h ∈ Finset.range n.nh,
      lncoshC (n.b h + ∑ v ∈ Finset.range n.nv, (s v : ℂ) * n.W v h)

/-- `Nqs::LogPoP` (`nqs.cc` lines 91-116): log of `Psi(state')/Psi(state)`
computed through the lookup table `Lt`; `0` for an empty flip list. -/
noncomputable def logPoP (n : Nqs) (Lt : ℕ → ℂ) (s : ℕ → ℤ) (flips : List ℕ) : ℂ :=
  if flips = [] then 0
  else
    -((flips.map (fun f => n.a f * 2 * (s f : ℂ))).sum) +
      ∑ h ∈ Finset.range n.nh,
        (lncoshC (Lt h - (flips.map (fun f => 2 * (s f : ℂ) * n.W f h)).sum) -
          lncoshC (Lt h))

/-- `Nqs::PoP` (`nqs.cc` lines 118-120): `exp (LogPoP state flips)`. -/
noncomputable def pop (n : Nqs) (Lt : ℕ → ℂ) (s : ℕ → ℤ) (flips : List ℕ) : ℂ :=
  Complex.exp (logPoP n Lt s flips)

/-- One accepted move as performed by `Sampler::Move` (`sampler.cc` lines
186-191): `UpdateLt` is called with the pre-flip state, then the state is
flipped at the same sites. -/
noncomputable def acceptStep (n : Nqs) (p : (ℕ → ℂ) × (ℕ → ℤ)) (F : List ℕ) :
    (ℕ → ℂ) × (ℕ → ℤ) :=
  (updateLt n p.2 F p.1, applyFlips p.2 F)

/-- A sequence of accepted moves applied to a (lookup table, configuration)
pair. -/
noncomputable def runUpdates (n : Nqs) (p : (ℕ → ℂ) × (ℕ → ℤ))
    (Fs : List (List ℕ)) : (ℕ → ℂ) × (ℕ → ℤ) :=
  Fs.foldl (acceptStep n) p

/-- Concrete RBM used by the witnesses: one visible and one hidden unit, all
parameters zero. -/
noncomputable def nqsW : Nqs := ⟨1, 1, fun _ => 0, fun _ => 0, fun _ _ => 0⟩

/-- Concrete all-up configuration used by the witnesses. -/
def stateW : ℕ → ℤ := fun _ => 1

theorem applyFlips_eq (s : ℕ → ℤ) (F : List ℕ) (hnd : F.Nodup) (v : ℕ) :
    applyFlips s F v = if v ∈ F then -(s v) else s v := by
  induction F generalizing s with
  | nil => simp [applyFlips]
  | cons f F ih =>
    rcases List.nodup_cons.mp hnd with ⟨hf, hF⟩
    have hstep : applyFlips s (f :: F) v
        = applyFlips (Function.update s f (-(s f))) F v := rfl
    rw [hstep, ih _ hF]
    by_cases hv : v = f
    · subst hv
      simp [Function.update_same, hf]
    · simp [Function.update_noteq hv, hv]

theorem list_sum_map_neg (l : List ℕ) (g : ℕ → ℂ) :
    (l.map (fun x => -(g x))).sum = -((l.map g).sum) := by
  induction l with
  | nil => simp
  | cons x l ih => simp [ih]; ring

theorem sum_range_applyFlips (n : Nqs) (s : ℕ → ℤ) (F : List ℕ)
    (hnd : F.Nodup) (hb : ∀ f ∈ F, f < n.nv) (c : ℕ → ℂ) :
    ∑ v ∈ Finset.range n.nv, (applyFlips s F v : ℂ) * c v
      = (∑ v ∈ Finset.range n.nv, (s v : ℂ) * c v)
        - (F.map (fun f => 2 * (s f : ℂ) * c f)).sum := by
  rw [← List.sum_toFinset _ hnd]
  have hsub : F.toFinset ⊆ Finset.range n.nv := by
    intro f hf
    rw [List.mem_toFinset] at hf
    exact Finset.mem_range.mpr (hb f hf)
  have key : ∀ v ∈ Finset.range n.nv,
      (applyFlips s F v : ℂ) * c v
        = (s v : ℂ) * c v - (if v ∈ F.toFinset then 2 * (s v : ℂ) * c v else 0) := by
    intro v _
    rw [applyFlips_eq s F hnd v]
    by_cases hv : v ∈ F
    · simp only [hv, if_true, List.mem_toFinset, Int.cast_neg]
      ring
    · simp [hv, List.mem_toFinset]
  rw [Finset.sum_congr rfl key, Finset.sum_sub_distrib, Finset.sum_ite_mem,
    Finset.inter_eq_right.mpr hsub]

theorem initLt_applyFlips (n : Nqs) (s : ℕ → ℤ) (F : List ℕ)
    (hnd : F.Nodup) (hb : ∀ f ∈ F, f < n.nv) (h : ℕ) :
    initLt n (applyFlips s F) h =
      initLt n s h - (F.map (fun f => 2 * (s f : ℂ) * n.W f h)).sum := by
  unfold initLt
  rw [sum_range_applyFlips n s F hnd hb (fun v => n.W v h)]
  ring

theorem updateLt_coherent (n : Nqs) (s : ℕ → ℤ) (Lt : ℕ → ℂ) (F : List ℕ)
    (hLt : ∀ h, Lt h = initLt n s h) (hnd : F.Nodup)
    (hb : ∀ f ∈ F, f < n.nv) (h : ℕ) :
    updateLt n s F Lt h = initLt n (applyFlips s F) h := by
  show Lt h - (F.map (fun f => 2 * (s f : ℂ) * n.W f h)).sum = _
  rw [initLt_applyFlips n s F hnd hb h, hLt h]

theorem runUpdates_coherent (n : Nqs) (Fs : List (List ℕ)) :
    ∀ (s : ℕ → ℤ) (Lt : ℕ → ℂ), (∀ h, Lt h = initLt n s h) →
      (∀ F ∈ Fs, F.Nodup ∧ ∀ f ∈ F, f < n.nv) →
      ∀ h, (runUpdates n (Lt, s) Fs).1 h = initLt n ((runUpdates n (Lt, s) Fs).2) h := by
  induction Fs with
  | nil =>
    intro s Lt hLt _ h
    simpa [runUpdates] using hLt h
  | cons F Fs ih =>
    intro s Lt hLt hall h
    have hF := hall F (List.mem_cons_self F Fs)
    have hstep : ∀ h, updateLt n s F Lt h = initLt n (applyFlips s F) h :=
      fun h => updateLt_coherent n s Lt F hLt hF.1 hF.2 h
    have hrw : runUpdates n (Lt, s) (F :: Fs)
        = runUpdates n (updateLt n s F Lt, applyFlips s F) Fs := rfl
    rw [hrw]
    exact ih (applyFlips s F) (updateLt n s F Lt) hstep
      (fun G hG => hall G (List.mem_cons_of_mem F hG)) h

/-- Claim C1: starting from `InitLt(s)`, after any sequence of `UpdateLt`
calls each made with the pre-flip state (with distinct in-range sites) and
followed by flipping exactly those sites, every lookup-table entry equals
`b[h] + Σ_v state[v]·W[v][h]` for the current configuration, i.e. what a
fresh `InitLt` on the current configuration would produce. -/
theorem C1_lookup_table_coherence (n : Nqs) (s : ℕ → ℤ) (Fs : List (List ℕ))
    (hall : ∀ F ∈ Fs, F.Nodup ∧ ∀ f ∈ F, f < n.nv) (h : ℕ) :
    (runUpdates n (initLt n s, s) Fs).1 h =
      initLt n ((runUpdates n (initLt n s, s) Fs).2) h :=
  runUpdates_coherent n Fs s (initLt n s) (fun _ => rfl) hall h

theorem C1_witness :
    (∀ F ∈ [[0]], List.Nodup F ∧ ∀ f ∈ F, f < nqsW.nv) ∧
      (runUpdates nqsW (initLt nqsW stateW, stateW) [[0]]).1 0 =
        initLt nqsW ((runUpdates nqsW (initLt nqsW stateW, stateW) [[0]]).2) 0 :=
  ⟨by decide, C1_lookup_table_coherence nqsW stateW [[0]] (by decide) 0⟩

/-- Claim C2: if the lookup table is coherent with `state`, then for every
non-empty list of distinct in-range flip sites, `LogPoP(state, flips)` equals
`LogVal(state') - LogVal(state)` where `state'` is `state` with those spins
negated. -/
theorem C2_logPoP_eq_logVal_diff (n : Nqs) (Lt : ℕ → ℂ) (s : ℕ → ℤ)
    (F : List ℕ) (hLt : ∀ h, Lt h = initLt n s h) (hne : F ≠ [])
    (hnd : F.Nodup) (hb : ∀ f ∈ F, f < n.nv) :
    logPoP n Lt s F = logVal n (applyFlips s F) - logVal n s := by
  have hA : ∑ v ∈ Finset.range n.nv, n.a v * (applyFlips s F v : ℂ)
      = (∑ v ∈ Finset.range n.nv, n.a v * (s v : ℂ))
        - (F.map (fun f => n.a f * 2 * (s f : ℂ))).sum := by
    have h1 : ∀ v ∈ Finset.range n.nv,
        n.a v * (applyFlips s F v : ℂ) = (applyFlips s F v : ℂ) * n.a v :=
      fun v _ => mul_comm _ _
    rw [Finset.sum_congr rfl h1, sum_range_applyFlips n s F hnd hb n.a]
    have h2 : ∀ v ∈ Finset.range n.nv, (s v : ℂ) * n.a v = n.a v * (s v : ℂ) :=
      fun v _ => mul_comm _ _
    rw [Finset.sum_congr rfl h2]
    congr 1
    congr 1
    exact List.map_congr_left (fun f _ => by ring)
  have hTheta : ∀ h : ℕ,
      n.b h + ∑ v ∈ Finset.range n.nv, (applyFlips s F v : ℂ) * n.W v h
        = Lt h - (F.map (fun f => 2 * (s f : ℂ) * n.W f h)).sum := by
    intro h
    have := initLt_applyFlips n s F hnd hb h
    unfold initLt at this
    rw [this, hLt h]
    unfold initLt
    rfl
  unfold logVal logPoP
  rw [if_neg hne, hA]
  rw [Finset.sum_congr rfl (fun h _ => congrArg lncoshC (hTheta h))]
  have hLtC : ∀ h ∈ Finset.range n.nh,
      lncoshC (n.b h + ∑ v ∈ Finset.range n.nv, (s v : ℂ) * n.W v h)
        = lncoshC (Lt h) := by
    intro h _
    rw [hLt h]
    rfl
  rw [Finset.sum_congr rfl hLtC, Finset.sum_sub_distrib]
  ring

theorem C2_witness :
    ((∀ h, initLt nqsW stateW h = initLt nqsW stateW h) ∧ ([0] : List ℕ) ≠ [] ∧
        List.Nodup [0] ∧ ∀ f ∈ [0], f < nqsW.nv) ∧
      logPoP nqsW (initLt nqsW stateW) stateW [0] =
        logVal nqsW (applyFlips stateW [0]) - logVal nqsW stateW :=
  ⟨⟨fun _ => rfl, by decide, by decide, by decide⟩,
    C2_logPoP_eq_logVal_diff nqsW (initLt nqsW stateW) stateW [0]
      (fun _ => rfl) (by decide) (by decide) (by decide)⟩

/-- Claim C9: with a coherent lookup table and a flip list of distinct sites,
performing `UpdateLt` with the pre-flip state and flipping, then doing the
same again with the flipped state, returns both the lookup table and the
configuration to their original values. -/
theorem C9_double_flip_round_trip (n : Nqs) (Lt : ℕ → ℂ) (s : ℕ → ℤ)
    (F : List ℕ) (_hLt : ∀ h, Lt h = initLt n s h) (hnd : F.Nodup) :
    (∀ h, updateLt n (applyFlips s F) F (updateLt n s F Lt) h = Lt h) ∧
      (∀ v, applyFlips (applyFlips s F) F v = s v) := by
  constructor
  · intro h
    show (Lt h - (F.map (fun f => 2 * (s f : ℂ) * n.W f h)).sum)
        - (F.map (fun f => 2 * (applyFlips s F f : ℂ) * n.W f h)).sum = Lt h
    have hmap : F.map (fun f => 2 * (applyFlips s F f : ℂ) * n.W f h)
        = F.map (fun f => -(2 * (s f : ℂ) * n.W f h)) := by
      apply List.map_congr_left
      intro f hf
      rw [applyFlips_eq s F hnd f, if_pos hf]
      push_cast
      ring
    rw [hmap, list_sum_map_neg]
    ring
  · intro v
    rw [applyFlips_eq _ F hnd v, applyFlips_eq s F hnd v]
    by_cases hv : v ∈ F
    · simp [hv]
    · simp [hv]

theorem C9_witness :
    ((∀ h, initLt nqsW stateW h = initLt nqsW stateW h) ∧ List.Nodup [0]) ∧
      ((∀ h, updateLt nqsW (applyFlips stateW [0]) [0]
          (updateLt nqsW stateW [0] (initLt nqsW stateW)) h = initLt nqsW stateW h) ∧
        (∀ v, applyFlips (applyFlips stateW [0]) [0] v = stateW v)) :=
  ⟨⟨fun _ => rfl, by decide⟩,
    C9_double_flip_round_trip nqsW (initLt nqsW stateW) stateW [0]
      (fun _ => rfl) (by decide)⟩

/-- A lattice Hamiltonian as the sampler uses it: `FindConn` fills two
parallel vectors, the flip lists and the matrix elements (the first entry is
the diagonal, with an empty flip list). -/
structure Ham where
  findConn : (ℕ → ℤ) → List (List ℕ) × List ℂ

/-- The mutable members of `Sampler` (`sampler.cc`): the current
configuration `state_`, the wave-function lookup table `Lt_` (owned by the
`Nqs` object in the C++ code, threaded explicitly here), the recorded
energies `energy_`, the statistics `accept_`/`nmoves_` (doubles in the
source, holding exact move counts), and the scratch vectors `flips_`,
`flipsh_`, `mel_`. -/
structure SamplerState where
  state : ℕ → ℤ
  Lt : ℕ → ℂ
  energy : List ℂ
  accept : ℕ
  nmoves : ℕ
  flips : List ℕ
  flipsh : List (List ℕ)
  mel : List ℂ

/-- The flip list written by `Sampler::RandSpin` (`sampler.cc` lines
109-124) for site draws `r0`, `r1`. -/
def proposedFlips (nflips r0 r1 : ℕ) : List ℕ :=
  if nflips = 2 then [r0, r1] else [r0]

/-- The boolean returned by `Sampler::RandSpin` with the default `mag0=true`:
a two-site proposal is usable only when the two drawn spins differ. -/
def randSpinOk (s : ℕ → ℤ) (nflips : ℕ) (r0 r1 : ℕ) : Bool :=
  if nflips = 2 then decide (s r1 ≠ s r0) else true

/-- The acceptance quantity computed in `Sampler::Move` (`sampler.cc` line
180): `std::norm(PoP(state, flips))`, i.e. the squared modulus of the
amplitude quotient. No clamping is applied in the source. -/
noncomputable def moveAcceptance (n : Nqs) (Lt : ℕ → ℂ) (s : ℕ → ℤ)
    (flips : List ℕ) : ℝ :=
  Complex.normSq (pop n Lt s flips)

/-- `Sampler::Move` (`sampler.cc` lines 174-198) for one proposal
`p = (r0, r1, u)`: `RandSpin` draws the sites; if usable, the acceptance is
`std::norm(PoP(state_, flips_))` and the Metropolis test `acceptance > u`
decides; on acceptance the lookup table is updated with the pre-flip state,
then the state is flipped and `accept_` increments. `nmoves_` always
increments. -/
noncomputable def move (n : Nqs) (nflips : ℕ) (p : ℕ × ℕ × ℝ)
    (st : SamplerState) : SamplerState :=
  let fl := proposedFlips nflips p.1 p.2.1
  if randSpinOk st.state nflips p.1 p.2.1 then
    if moveAcceptance n st.Lt st.state fl > p.2.2 then
      { state := applyFlips st.state fl
        Lt := updateLt n st.state fl st.Lt
        energy := st.energy
        accept := st.accept + 1
        nmoves := st.nmoves + 1
        flips := fl
        flipsh := st.flipsh
        mel := st.mel }
    else { st with nmoves := st.nmoves + 1, flips := fl }
  else { st with nmoves := st.nmoves + 1, flips := fl }

/-- `Sampler::ResetAv` (`sampler.cc` lines 165-168). -/
def resetAv (st : SamplerState) : SamplerState :=
  { st with accept := 0, nmoves := 0 }

/-- `Sampler::MeasureEnergy` (`sampler.cc` lines 221-235): `FindConn` fills
`flipsh_`/`mel_`, the local energy `Σ_i PoP(state_, flipsh_[i])·mel_[i]` is
computed, and the result is appended to `energy_`. -/
noncomputable def measureEnergy (n : Nqs) (H : Ham) (st : SamplerState) :
    SamplerState :=
  let fc := H.findConn st.state
  { st with
    flipsh := fc.1
    mel := fc.2
    energy := st.energy ++
      [((fc.1.zip fc.2).map (fun q => pop n st.Lt st.state q.1 * q.2)).sum] }

/-- One sweep: `nspins*sweepfactor` calls to `Move` (`sampler.cc` lines
285-287 and 299-301), the per-move randomness supplied by `r`. -/
noncomputable def sweep (n : Nqs) (nflips sweepfactor : ℕ)
    (r : ℕ → ℕ × ℕ × ℝ) (st : SamplerState) : SamplerState :=
  (List.range (n.nv * sweepfactor)).foldl (fun st k => move n nflips (r k) st) st

/-- Iteration count of the C++ loop `for(double n=0; n<T; n+=1)`: the counter
takes the exactly representable values 0, 1, 2, ... and the body runs once
for each natural `k` with `(k : ℝ) < T`, i.e. `⌈T⌉₊` times (`Nat.lt_ceil`). -/
noncomputable def sweepCount (T : ℝ) : ℕ := Nat.ceil T

/-- `Sampler::Run` after its parameter validation (`sampler.cc` lines
268-311): install the externally drawn random initial state `s0`
(`InitRandomState`), initialize the lookup table (`InitLt`), reset the
statistics, run the thermalization loop (bound `nsweeps*thermfactor`), reset
the statistics again, then run the measurement loop (bound `nsweeps`), each
measurement sweep followed by one `MeasureEnergy`. `rT`/`rM` give each
thermalization/measurement sweep its move randomness; `en0` is the content of
`energy_` when `Run` starts (empty in the C++ program). -/
noncomputable def runLoop (n : Nqs) (H : Ham) (nsweeps thermfactor : ℝ)
    (sweepfactor nflips : ℕ) (rT rM : ℕ → ℕ → ℕ × ℕ × ℝ) (s0 : ℕ → ℤ)
    (en0 : List ℂ) : SamplerState :=
  let st0 : SamplerState :=
    { state := s0, Lt := initLt n s0, energy := en0, accept := 0, nmoves := 0,
      flips := [], flipsh := [], mel := [] }
  let st1 := (List.range (sweepCount (nsweeps * thermfactor))).foldl
    (fun st k => sweep n nflips sweepfactor (rT k) st) st0
  let st2 := resetAv st1
  (List.range (sweepCount nsweeps)).foldl
    (fun st k => measureEnergy n H (sweep n nflips sweepfactor (rM k) st)) st2

/-- The effective flip count of `Sampler::Run` (`sampler.cc` lines 245-249):
the override `nflipss`, or the Hamiltonian's `MinFlips()` when the override
is the default `-1`. -/
def effectiveFlips (minFlips nflipss : ℤ) : ℤ :=
  if nflipss = -1 then minFlips else nflipss

/-- The validation prologue of `Sampler::Run` (`sampler.cc` lines 243-266)
followed by the sampling loops: each failed check aborts (`none`) before
`InitRandomState`/`InitLt`/any `Move` runs. -/
noncomputable def runProgram (n : Nqs) (H : Ham) (minFlips nflipss : ℤ)
    (nsweeps thermfactor : ℝ) (sweepfactor : ℕ)
    (rT rM : ℕ → ℕ → ℕ × ℕ × ℝ) (s0 : ℕ → ℤ) (en0 : List ℂ) :
    Option SamplerState :=
  if 2 < effectiveFlips minFlips nflipss ∨ effectiveFlips minFlips nflipss < 1 then none
  else if 1 < thermfactor ∨ thermfactor < 0 then none
  else if nsweeps < 50 then none
  else some (runLoop n H nsweeps thermfactor sweepfactor
    (effectiveFlips minFlips nflipss).toNat rT rM s0 en0)

/-- Concrete sampler state for witnesses. -/
noncomputable def samplerW : SamplerState :=
  { state := stateW, Lt := fun _ => 0, energy := [], accept := 0, nmoves := 0,
    flips := [], flipsh := [], mel := [] }

/-- Concrete Hamiltonian for witnesses: only a diagonal entry. -/
def hamW : Ham := ⟨fun _ => ([[]], [0])⟩

/-- RBM with one visible unit, no hidden units, visible bias 1: its amplitude
quotient for flipping site 0 of the all-down state is `exp 2 > 1`. -/
noncomputable def nqsA : Nqs := ⟨1, 0, fun _ => 1, fun _ => 0, fun _ _ => 0⟩

/-- The all-down configuration. -/
def stateDown : ℕ → ℤ := fun _ => -1

/-- Claim C10: `MeasureEnergy` appends exactly one complex value (the local
energy `Σ_i PoP(state, flipsh[i])·mel[i]`) to the energy sequence and leaves
the spin configuration and the lookup table unchanged, for every
configuration and every Hamiltonian. -/
theorem C10_measureEnergy_frame (n : Nqs) (H : Ham) (st : SamplerState) :
    (measureEnergy n H st).state = st.state ∧
      (measureEnergy n H st).Lt = st.Lt ∧
      (measureEnergy n H st).energy
        = st.energy ++ [(((H.findConn st.state).1.zip (H.findConn st.state).2).map
            (fun q => pop n st.Lt st.state q.1 * q.2)).sum] ∧
      (measureEnergy n H st).energy.length = st.energy.length + 1 := by
  refine ⟨rfl, rfl, rfl, ?_⟩
  simp [measureEnergy]

/-- Claim C4 counterexample: the acceptance quantity computed in `Move` is
`std::norm(PoP(...))` with no `min(1,·)` clamp, and it exceeds 1 at a
concrete input (one visible unit, bias 1, all-down state, flip site 0). -/
theorem C4_counterexample :
    1 < moveAcceptance nqsA (fun _ => 0) stateDown [0] := by
  have hlog : logPoP nqsA (fun _ => 0) stateDown [0] = 2 := by
    unfold logPoP
    norm_num [nqsA, stateDown]
  have hpop : pop nqsA (fun _ => 0) stateDown [0] = ((Real.exp 2 : ℝ) : ℂ) := by
    unfold pop
    rw [hlog, Complex.ofReal_exp]
    norm_num
  unfold moveAcceptance
  rw [hpop, Complex.normSq_ofReal]
  nlinarith [Real.add_one_le_exp (2 : ℝ)]

/-- Claim C4 (amended): `Move` computes the unclamped acceptance quantity
`|PoP|²` (which can exceed 1), but for a uniform variate `u ∈ [0,1)` the
Metropolis test `acceptance > u` accepts iff `u < min(1, |PoP|²)`, so the
effective acceptance probability is `min(1, |PoP|²)` and always lies in
`[0,1]`; the move is accepted (the accept counter increments) iff the
proposal is usable and the variate is below that probability. -/
theorem C4_move_acceptance (n : Nqs) (nflips : ℕ) (p : ℕ × ℕ × ℝ)
    (st : SamplerState) (_h0 : 0 ≤ p.2.2) (h1 : p.2.2 < 1) :
    (0 ≤ min 1 (moveAcceptance n st.Lt st.state (proposedFlips nflips p.1 p.2.1)) ∧
      min 1 (moveAcceptance n st.Lt st.state (proposedFlips nflips p.1 p.2.1)) ≤ 1) ∧
    ((move n nflips p st).accept = st.accept + 1 ↔
      randSpinOk st.state nflips p.1 p.2.1 = true ∧
        p.2.2 < min 1 (moveAcceptance n st.Lt st.state (proposedFlips nflips p.1 p.2.1))) := by
  have hnn : 0 ≤ moveAcceptance n st.Lt st.state (proposedFlips nflips p.1 p.2.1) :=
    Complex.normSq_nonneg _
  refine ⟨⟨le_min zero_le_one hnn, min_le_left _ _⟩, ?_⟩
  simp only [move]
  by_cases hok : randSpinOk st.state nflips p.1 p.2.1
  · rw [if_pos hok]
    by_cases hacc : moveAcceptance n st.Lt st.state (proposedFlips nflips p.1 p.2.1) > p.2.2
    · rw [if_pos hacc]
      simp only [hok, true_and]
      constructor
      · intro _
        exact lt_min h1 hacc
      · intro _
        trivial
    · rw [if_neg hacc]
      simp only [hok, true_and]
      constructor
      · intro hc
        exact absurd hc (by simp)
      · intro hc
        exact absurd ((lt_min_iff.mp hc).2) hacc
  · rw [if_neg hok]
    constructor
    · intro hc
      exact absurd hc (by simp)
    · intro hc
      exact absurd hc (by simp [hok])

theorem C4_witness :
    ((0 : ℝ) ≤ 0 ∧ (0 : ℝ) < 1) ∧
      ((0 ≤ min 1 (moveAcceptance nqsW samplerW.Lt samplerW.state
            (proposedFlips 1 0 0)) ∧
        min 1 (moveAcceptance nqsW samplerW.Lt samplerW.state
            (proposedFlips 1 0 0)) ≤ 1) ∧
      ((move nqsW 1 (0, 0, 0) samplerW).accept = samplerW.accept + 1 ↔
        randSpinOk samplerW.state 1 0 0 = true ∧
          (0 : ℝ) < min 1 (moveAcceptance nqsW samplerW.Lt samplerW.state
            (proposedFlips 1 0 0)))) :=
  ⟨⟨le_refl 0, zero_lt_one⟩,
    C4_move_acceptance nqsW 1 (0, 0, 0) samplerW (le_refl 0) zero_lt_one⟩

theorem move_energy (n : Nqs) (nflips : ℕ) (p : ℕ × ℕ × ℝ) (st : SamplerState) :
    (move n nflips p st).energy = st.energy := by
  simp only [move]
  split_ifs <;> rfl

theorem move_nmoves (n : Nqs) (nflips : ℕ) (p : ℕ × ℕ × ℝ) (st : SamplerState) :
    (move n nflips p st).nmoves = st.nmoves + 1 := by
  simp only [move]
  split_ifs <;> rfl

theorem sweep_energy (n : Nqs) (nflips sweepfactor : ℕ) (r : ℕ → ℕ × ℕ × ℝ)
    (st : SamplerState) : (sweep n nflips sweepfactor r st).energy = st.energy := by
  unfold sweep
  generalize List.range (n.nv * sweepfactor) = l
  induction l generalizing st with
  | nil => rfl
  | cons k l ih => rw [List.foldl_cons, ih, move_energy]

theorem moveFold_nmoves (n : Nqs) (nflips : ℕ) (r : ℕ → ℕ × ℕ × ℝ)
    (l : List ℕ) (st : SamplerState) :
    ((l.foldl (fun st k => move n nflips (r k) st) st).nmoves) = st.nmoves + l.length := by
  induction l generalizing st with
  | nil => rfl
  | cons k l ih =>
    rw [List.foldl_cons, ih, move_nmoves, List.length_cons]
    omega

theorem sweep_nmoves (n : Nqs) (nflips sweepfactor : ℕ) (r : ℕ → ℕ × ℕ × ℝ)
    (st : SamplerState) :
    (sweep n nflips sweepfactor r st).nmoves = st.nmoves + n.nv * sweepfactor := by
  unfold sweep
  rw [moveFold_nmoves, List.length_range]

theorem measureLoop_energy_length (n : Nqs) (H : Ham) (nflips sweepfactor : ℕ)
    (rM : ℕ → ℕ → ℕ × ℕ × ℝ) (l : List ℕ) (st : SamplerState) :
    ((l.foldl (fun st k => measureEnergy n H (sweep n nflips sweepfactor (rM k) st)) st).energy.length)
      = st.energy.length + l.length := by
  induction l generalizing st with
  | nil => rfl
  | cons k l ih =>
    rw [List.foldl_cons, ih]
    have h1 : (measureEnergy n H (sweep n nflips sweepfactor (rM k) st)).energy.length
        = st.energy.length + 1 := by
      have := sweep_energy n nflips sweepfactor (rM k) st
      simp [measureEnergy, this]
    rw [h1, List.length_cons]
    omega

theorem measureLoop_nmoves (n : Nqs) (H : Ham) (nflips sweepfactor : ℕ)
    (rM : ℕ → ℕ → ℕ × ℕ × ℝ) (l : List ℕ) (st : SamplerState) :
    ((l.foldl (fun st k => measureEnergy n H (sweep n nflips sweepfactor (rM k) st)) st).nmoves)
      = st.nmoves + l.length * (n.nv * sweepfactor) := by
  induction l generalizing st with
  | nil => simp
  | cons k l ih =>
    rw [List.foldl_cons, ih]
    have h1 : (measureEnergy n H (sweep n nflips sweepfactor (rM k) st)).nmoves
        = st.nmoves + n.nv * sweepfactor := by
      have := sweep_nmoves n nflips sweepfactor (rM k) st
      simp [measureEnergy, this]
    rw [h1, List.length_cons]
    ring

theorem runLoop_energy_length (n : Nqs) (H : Ham) (nsweeps thermfactor : ℝ)
    (sweepfactor nflips : ℕ) (rT rM : ℕ → ℕ → ℕ × ℕ × ℝ) (s0 : ℕ → ℤ)
    (en0 : List ℂ) :
    (runLoop n H nsweeps thermfactor sweepfactor nflips rT rM s0 en0).energy.length
      = en0.length + sweepCount nsweeps := by
  unfold runLoop
  rw [measureLoop_energy_length, List.length_range]
  have hth : ∀ (l : List ℕ) (st : SamplerState),
      (l.foldl (fun st k => sweep n nflips sweepfactor (rT k) st) st).energy = st.energy := by
    intro l
    induction l with
    | nil => intro st; rfl
    | cons k l ih =>
      intro st
      rw [List.foldl_cons, ih, sweep_energy]
  simp [resetAv, hth]

theorem runLoop_nmoves (n : Nqs) (H : Ham) (nsweeps thermfactor : ℝ)
    (sweepfactor nflips : ℕ) (rT rM : ℕ → ℕ → ℕ × ℕ × ℝ) (s0 : ℕ → ℤ)
    (en0 : List ℂ) :
    (runLoop n H nsweeps thermfactor sweepfactor nflips rT rM s0 en0).nmoves
      = sweepCount nsweeps * (n.nv * sweepfactor) := by
  unfold runLoop
  rw [measureLoop_nmoves, List.length_range]
  simp [resetAv]

/-- Claim C3 (amended): `Run` executes `⌈thermfactor·nsweeps⌉` thermalization
sweeps discarding statistics, resets statistics, then executes `⌈nsweeps⌉`
further measurement sweeps — the full `nsweeps`, not `(1−thermfactor)·nsweeps`
— of `N·sweepfactor` `Move` calls each, recording exactly one local-energy
sample per measurement sweep, so the energy sequence gains `⌈nsweeps⌉`
entries and the post-reset move counter is `⌈nsweeps⌉·N·sweepfactor`. -/
theorem C3_sweep_accounting (n : Nqs) (H : Ham) (nsweeps thermfactor : ℝ)
    (sweepfactor nflips : ℕ) (rT rM : ℕ → ℕ → ℕ × ℕ × ℝ) (s0 : ℕ → ℤ)
    (en0 : List ℂ) :
    (runLoop n H nsweeps thermfactor sweepfactor nflips rT rM s0 en0).energy.length
        = en0.length + sweepCount nsweeps ∧
      (runLoop n H nsweeps thermfactor sweepfactor nflips rT rM s0 en0).nmoves
        = sweepCount nsweeps * (n.nv * sweepfactor) :=
  ⟨runLoop_energy_length n H nsweeps thermfactor sweepfactor nflips rT rM s0 en0,
    runLoop_nmoves n H nsweeps thermfactor sweepfactor nflips rT rM s0 en0⟩

/-- Claim C3 counterexample: with `nsweeps = 100`, `thermfactor = 1/2` and an
initially empty energy record, the run records 100 samples, not
`(1 − thermfactor)·nsweeps = 50`. -/
theorem C3_counterexample :
    (runLoop nqsW hamW 100 (1/2) 0 2 (fun _ _ => (0, 0, 0)) (fun _ _ => (0, 0, 0))
        stateW []).energy.length = 100 ∧
      (1 - (1/2 : ℝ)) * 100 = 50 ∧ (100 : ℕ) ≠ 50 := by
  refine ⟨?_, by norm_num, by decide⟩
  rw [runLoop_energy_length]
  simp [sweepCount]

/-- Claim C8: `Run` aborts before any state initialization or sampling iff
the effective flip count (the override, or `MinFlips()` when the override is
the default `-1`) is not 1 or 2, or the thermalization fraction is outside
`[0,1]`, or `nsweeps < 50`; for in-range parameters it proceeds to the
sampling loops. -/
theorem C8_run_validation (n : Nqs) (H : Ham) (minFlips nflipss : ℤ)
    (nsweeps thermfactor : ℝ) (sweepfactor : ℕ)
    (rT rM : ℕ → ℕ → ℕ × ℕ × ℝ) (s0 : ℕ → ℤ) (en0 : List ℂ) :
    (runProgram n H minFlips nflipss nsweeps thermfactor sweepfactor rT rM s0 en0 = none ↔
      ¬(effectiveFlips minFlips nflipss = 1 ∨ effectiveFlips minFlips nflipss = 2) ∨
        ¬(0 ≤ thermfactor ∧ thermfactor ≤ 1) ∨ nsweeps < 50) ∧
    (runProgram n H minFlips nflipss nsweeps thermfactor sweepfactor rT rM s0 en0 ≠ none →
      runProgram n H minFlips nflipss nsweeps thermfactor sweepfactor rT rM s0 en0
        = some (runLoop n H nsweeps thermfactor sweepfactor
            (effectiveFlips minFlips nflipss).toNat rT rM s0 en0)) := by
  constructor
  · unfold runProgram
    split_ifs with hf ht hs
    · refine iff_of_true rfl ?_
      left
      omega
    · refine iff_of_true rfl ?_
      right
      left
      intro hc
      rcases ht with ht | ht
      · linarith [hc.2]
      · linarith [hc.1]
    · exact iff_of_true rfl (Or.inr (Or.inr hs))
    · refine iff_of_false (by simp) ?_
      push_neg
      push_neg at ht
      exact ⟨by omega, ⟨ht.2, ht.1⟩, le_of_not_lt hs⟩
  · intro hne
    unfold runProgram at hne ⊢
    split_ifs at hne ⊢ with hf ht hs
    · exact absurd rfl hne
    · exact absurd rfl hne
    · exact absurd rfl hne
    · rfl

theorem lncoshR_of_le (x : ℝ) (hx : |x| ≤ 12) :
    lncoshR x = Real.log (Real.cosh |x|) := by
  unfold lncoshR
  rw [if_pos hx]

theorem lncoshR_of_gt (x : ℝ) (hx : ¬(|x| ≤ 12)) :
    lncoshR x = |x| - Real.log 2 := by
  unfold lncoshR
  rw [if_neg hx]

theorem lncoshR_twelve :
    lncoshR 12 = 12 + Real.log (1 + Real.exp (-24)) - Real.log 2 := by
  have habs : |(12 : ℝ)| = 12 := abs_of_pos (by norm_num)
  rw [lncoshR_of_le 12 (by rw [habs]), habs]
  have he : Real.exp (-12) = Real.exp 12 * Real.exp (-24) := by
    rw [← Real.exp_add]
    norm_num
  have hcosh : Real.cosh 12 = Real.exp 12 * (1 + Real.exp (-24)) / 2 := by
    rw [Real.cosh_eq, he]
    ring
  rw [hcosh, Real.log_div (by positivity) (by norm_num),
    Real.log_mul (by positivity) (by positivity), Real.log_exp]

theorem log_one_add_exp_neg24_gt :
    (1 / 10 ^ 11 : ℝ) < Real.log (1 + Real.exp (-24)) := by
  have hexp24 : Real.exp 24 ≤ 5e10 := by
    have h24 : Real.exp 24 = Real.exp 1 ^ 24 := by
      rw [← Real.exp_nat_mul]
      norm_num
    rw [h24]
    calc Real.exp 1 ^ 24 ≤ 2.7182818286 ^ 24 :=
          pow_le_pow_left₀ (le_of_lt (Real.exp_pos 1)) (le_of_lt Real.exp_one_lt_d9) 24
      _ ≤ 5e10 := by norm_num
  have ht : (2e-11 : ℝ) ≤ Real.exp (-24) := by
    rw [Real.exp_neg]
    calc (2e-11 : ℝ) = (5e10 : ℝ)⁻¹ := by norm_num
      _ ≤ (Real.exp 24)⁻¹ := inv_anti₀ (Real.exp_pos 24) hexp24
  have htlt1 : Real.exp (-24) < 1 := Real.exp_lt_one_iff.mpr (by norm_num)
  have h1 : (0 : ℝ) < 1 + Real.exp (-24) := by positivity
  have hlb : Real.exp (-24) / (1 + Real.exp (-24)) ≤ Real.log (1 + Real.exp (-24)) := by
    have h2 := Real.log_le_sub_one_of_pos (x := (1 + Real.exp (-24))⁻¹) (by positivity)
    rw [Real.log_inv] at h2
    have h3 : 1 - (1 + Real.exp (-24))⁻¹ ≤ Real.log (1 + Real.exp (-24)) := by linarith
    calc Real.exp (-24) / (1 + Real.exp (-24)) = 1 - (1 + Real.exp (-24))⁻¹ := by
          field_simp
      _ ≤ _ := h3
  have hgt : (1 / 10 ^ 11 : ℝ) < Real.exp (-24) / (1 + Real.exp (-24)) := by
    rw [lt_div_iff₀ h1]
    nlinarith [ht, htlt1]
  linarith

/-- Claim C5 counterexample: in the exact-real semantics of the source, the
real `lncosh` is not monotonically increasing across the cutoff: at
`x = 12 + 10⁻¹¹ > 12` the asymptotic branch gives a smaller value than at
`x = 12` (the direct branch exceeds the asymptote by `log(1+exp(-24)) ≈
3.8·10⁻¹¹`), so the claimed continuity-and-monotonicity on all of `x > 0`
fails at this concrete input. -/
theorem C5_counterexample :
    (12 : ℝ) < 12 + 1 / 10 ^ 11 ∧ lncoshR (12 + 1 / 10 ^ 11) < lncoshR 12 := by
  refine ⟨by norm_num, ?_⟩
  have habs : |(12 : ℝ) + 1 / 10 ^ 11| = 12 + 1 / 10 ^ 11 := abs_of_pos (by norm_num)
  have h1 : lncoshR (12 + 1 / 10 ^ 11) = 12 + 1 / 10 ^ 11 - Real.log 2 := by
    rw [lncoshR_of_gt _ (by rw [habs]; norm_num), habs]
  rw [h1, lncoshR_twelve]
  linarith [log_one_add_exp_neg24_gt]

/-- Claim C5 (amended): the real `lncosh` is continuous and strictly
increasing on `(0, 12]` and on `(12, ∞)` separately, but at the cutoff it
drops: `lncosh 12` exceeds the asymptotic value `12 - log 2` by the positive
amount `log(1 + exp(-24))`, so it is neither continuous nor monotonically
increasing across `x = 12`. -/
theorem C5_lncosh_piecewise :
    StrictMonoOn lncoshR (Set.Ioc 0 12) ∧
      StrictMonoOn lncoshR (Set.Ioi (12 : ℝ)) ∧
      ContinuousOn lncoshR (Set.Ioc 0 12) ∧
      ContinuousOn lncoshR (Set.Ioi (12 : ℝ)) ∧
      lncoshR 12 = 12 + Real.log (1 + Real.exp (-24)) - Real.log 2 ∧
      0 < Real.log (1 + Real.exp (-24)) := by
  refine ⟨?_, ?_, ?_, ?_, lncoshR_twelve, ?_⟩
  · intro x hx y hy hxy
    have hax : |x| = x := abs_of_pos hx.1
    have hay : |y| = y := abs_of_pos (lt_trans hx.1 hxy)
    rw [lncoshR_of_le x (by rw [hax]; exact hx.2),
      lncoshR_of_le y (by rw [hay]; exact hy.2)]
    apply Real.log_lt_log (Real.cosh_pos _)
    rw [Real.cosh_lt_cosh]
    rw [abs_abs, abs_abs, hax, hay]
    exact hxy
  · intro x hx y hy hxy
    have hax : |x| = x := abs_of_pos (lt_trans (by norm_num) hx)
    have hay : |y| = y := abs_of_pos (lt_trans (by norm_num) hy)
    rw [lncoshR_of_gt x (by rw [hax]; exact not_le.mpr hx),
      lncoshR_of_gt y (by rw [hay]; exact not_le.mpr hy), hax, hay]
    exact sub_lt_sub_right hxy _
  · have hcont : Continuous fun x : ℝ => Real.log (Real.cosh |x|) :=
      Continuous.log (Real.continuous_cosh.comp continuous_abs)
        (fun x => (Real.cosh_pos _).ne')
    apply ContinuousOn.congr hcont.continuousOn
    intro x hx
    exact lncoshR_of_le x (by rw [abs_of_pos hx.1]; exact hx.2)
  · have hcont : Continuous fun x : ℝ => x - Real.log 2 :=
      continuous_id.sub continuous_const
    apply ContinuousOn.congr hcont.continuousOn
    intro x hx
    have hax : |x| = x := abs_of_pos (lt_trans (by norm_num) hx)
    rw [lncoshR_of_gt x (by rw [hax]; exact not_le.mpr hx), hax]
  · exact Real.log_pos (by linarith [Real.exp_pos (-24 : ℝ)])

/-- One step of Welford's online mean/variance update as implemented in
`Sampler::OutputEnergy` (`sampler.cc` lines 331-334 and 337-340):
`delta = x - mean; mean += delta/(count+1); delta2 = x - mean;
M2 += delta*delta2`. The accumulator is (mean, M2, count). -/
noncomputable def welfordStep : ℝ × ℝ × ℕ → ℝ → ℝ × ℝ × ℕ
  | (m, m2, k), x =>
    (m + (x - m) / (k + 1),
      m2 + (x - m) * (x - (m + (x - m) / (k + 1))),
      k + 1)

/-- Welford accumulation over a list of samples, starting from zeroes. -/
noncomputable def welford (l : List ℝ) : ℝ × ℝ × ℕ :=
  l.foldl welfordStep (0, 0, 0)

/-- `Sampler::OutputEnergy` (`sampler.cc` lines 314-366): 50 blocks of size
`⌊ne/50⌋` (`std::floor(double(ne)/50)`, exact as natural division for any
realistic record length). The nested loops visit the retained sample indices
`j = i·blocksize + jj` for `i = 0,…,49`, `jj = 0,…,blocksize-1`, i.e. the
indices `0,…,50·blocksize−1` in increasing order; the real parts feed the
unblocked Welford accumulator, and each block mean (block sum divided by the
block size) feeds the blocked accumulator; the two accumulators are
independent, so the interleaved loop equals the two folds below. Returned
triple: estimated energy per spin, its error, and the autocorrelation-time
estimate, exactly as printed. -/
noncomputable def outputEnergy (e : ℕ → ℂ) (ne nspins : ℕ) : ℝ × ℝ × ℝ :=
  let nblocks : ℕ := 50
  let blocksize : ℕ := ne / nblocks
  let u := welford
    (((List.range nblocks).flatMap
        (fun i => (List.range blocksize).map (fun j => i * blocksize + j))).map
      (fun j => (e j).re))
  let bw := welford ((List.range nblocks).map
    (fun i => ((List.range blocksize).map (fun j => (e (i * blocksize + j)).re)).sum
      / blocksize))
  let enmeansq := bw.2.1 / ((nblocks : ℤ) - 1 : ℤ)
  let enmeansqUnblocked := u.2.1 / ((nblocks * blocksize : ℤ) - 1 : ℤ)
  (bw.1 / nspins,
    Real.sqrt (enmeansq / nblocks) / nspins,
    0.5 * blocksize * enmeansq / enmeansqUnblocked)

/-- Spec-side: the unblocked mean of the retained samples (first
`50·⌊ne/50⌋` real parts). -/
noncomputable def specRetainedMean (e : ℕ → ℂ) (ne : ℕ) : ℝ :=
  (∑ j ∈ Finset.range (50 * (ne / 50)), (e j).re) / ((50 * (ne / 50) : ℕ) : ℝ)

/-- Spec-side: the `i`-th block mean. -/
noncomputable def specBlockMean (e : ℕ → ℂ) (ne i : ℕ) : ℝ :=
  (∑ j ∈ Finset.range (ne / 50), (e (i * (ne / 50) + j)).re) / ((ne / 50 : ℕ) : ℝ)

/-- Spec-side: sample variance of the 50 block means, divisor 49. -/
noncomputable def specBlockedVar (e : ℕ → ℂ) (ne : ℕ) : ℝ :=
  (∑ i ∈ Finset.range 50,
    (specBlockMean e ne i - (∑ i ∈ Finset.range 50, specBlockMean e ne i) / 50) ^ 2) / 49

/-- Spec-side: sample variance of the retained samples, divisor
`retained − 1`. -/
noncomputable def specUnblockedVar (e : ℕ → ℂ) (ne : ℕ) : ℝ :=
  (∑ j ∈ Finset.range (50 * (ne / 50)), ((e j).re - specRetainedMean e ne) ^ 2)
    / (((50 * (ne / 50) : ℕ) : ℤ) - 1 : ℤ)

theorem finsetRangeSum_eq_listSum {M : Type} [AddCommMonoid M] (n : ℕ) (f : ℕ → M) :
    ∑ j ∈ Finset.range n, f j = ((List.range n).map f).sum := by
  induction n with
  | zero => simp
  | succ n ih =>
    rw [Finset.sum_range_succ, List.range_succ, List.map_append, List.sum_append, ih]
    simp

theorem listSum_map_div (l : List ℕ) (g : ℕ → ℝ) (c : ℝ) :
    (l.map (fun i => g i / c)).sum = (l.map g).sum / c := by
  induction l with
  | nil => simp
  | cons x l ih => simp [ih, add_div]

theorem listSum_sq_shift (l : List ℝ) (m mm : ℝ) :
    (l.map (fun x => (x - mm) ^ 2)).sum
      = (l.map (fun x => (x - m) ^ 2)).sum
        + 2 * (m - mm) * ((l.map (fun x => x - m)).sum)
        + l.length * (m - mm) ^ 2 := by
  induction l with
  | nil => simp
  | cons x l ih =>
    simp only [List.map_cons, List.sum_cons, List.length_cons, ih]
    push_cast
    ring

theorem listSum_map_sub (l : List ℝ) (m : ℝ) :
    (l.map (fun x => x - m)).sum = l.sum - l.length * m := by
  induction l with
  | nil => simp
  | cons x l ih =>
    simp only [List.map_cons, List.sum_cons, List.length_cons, ih]
    push_cast
    ring

theorem welford_spec (l : List ℝ) :
    welford l = (l.sum / l.length,
      (l.map (fun x => (x - l.sum / l.length) ^ 2)).sum, l.length) := by
  induction l using List.reverseRecOn with
  | nil => simp [welford]
  | append_singleton l a ih =>
    have hW : welford (l ++ [a]) = welfordStep (welford l) a := by
      unfold welford
      rw [List.foldl_append]
      rfl
    rw [hW, ih]
    have hlen : ((l ++ [a]).length : ℝ) = (l.length : ℝ) + 1 := by
      simp
    have hsum : (l ++ [a]).sum = l.sum + a := by simp
    have hnu : (l ++ [a]).sum / ((l ++ [a]).length : ℝ)
        = (l.sum + a) / ((l.length : ℝ) + 1) := by rw [hlen, hsum]
    rcases Nat.eq_zero_or_pos l.length with hk | hk
    · have hl : l = [] := List.length_eq_zero.mp hk
      subst hl
      show welfordStep (0 / ((0:ℕ):ℝ), _, 0) a = _
      simp [welfordStep]
    · have hk0 : (l.length : ℝ) ≠ 0 := Nat.cast_ne_zero.mpr hk.ne'
      have hk1 : (l.length : ℝ) + 1 ≠ 0 := by positivity
      have hmean : l.sum / l.length + (a - l.sum / l.length) / ((l.length : ℝ) + 1)
          = (l.sum + a) / ((l.length : ℝ) + 1) := by
        field_simp
        ring
      have hm2 : ((l ++ [a]).map
            (fun x => (x - (l ++ [a]).sum / ((l ++ [a]).length : ℝ)) ^ 2)).sum
          = (l.map (fun x => (x - l.sum / (l.length : ℝ)) ^ 2)).sum
            + (a - l.sum / (l.length : ℝ))
              * (a - (l.sum / (l.length : ℝ)
                  + (a - l.sum / (l.length : ℝ)) / ((l.length : ℝ) + 1))) := by
        rw [hnu, List.map_append, List.sum_append,
          listSum_sq_shift l (l.sum / (l.length : ℝ)) ((l.sum + a) / ((l.length : ℝ) + 1)),
          listSum_map_sub]
        have hz : l.sum - (l.length : ℝ) * (l.sum / l.length) = 0 := by
          field_simp
        rw [hz]
        simp only [List.map_cons, List.map_nil, List.sum_cons, List.sum_nil]
        field_simp
        ring
      show welfordStep (l.sum / (l.length : ℝ), _, l.length) a = _
      refine Prod.ext ?_ (Prod.ext ?_ ?_)
      · show l.sum / (l.length : ℝ) + (a - l.sum / l.length) / ((l.length : ℝ) + 1)
          = (l ++ [a]).sum / ((l ++ [a]).length : ℝ)
        rw [hnu, hmean]
      · exact hm2.symm
      · show l.length + 1 = (l ++ [a]).length
        simp

theorem blocksum_eq (bs : ℕ) (x : ℕ → ℝ) (nb : ℕ) :
    ((List.range (nb * bs)).map x).sum
      = ((List.range nb).map
          (fun i => ((List.range bs).map (fun j => x (i * bs + j))).sum)).sum := by
  induction nb with
  | zero => simp
  | succ nb ih =>
    rw [Nat.succ_mul, List.range_add, List.map_append, List.sum_append, ih,
      List.range_succ, List.map_append, List.sum_append]
    simp only [List.map_map, List.map_cons, List.map_nil, List.sum_cons, List.sum_nil,
      add_zero]
    rfl

theorem range_flatten (nb bs : ℕ) :
    (List.range nb).flatMap (fun i => (List.range bs).map (fun j => i * bs + j))
      = List.range (nb * bs) := by
  induction nb with
  | zero => simp
  | succ nb ih =>
    rw [List.range_succ, List.flatMap_append, ih, Nat.succ_mul, List.range_add]
    simp [List.map_map, Function.comp, Nat.add_comm]

/-- Claim C7: for a record of `ne ≥ 50` energy samples, `OutputEnergy`
retains the first `50·⌊ne/50⌋` samples in 50 contiguous blocks and reports:
mean energy per spin = unblocked mean of the retained samples / N
(equivalently, mean of the 50 block means / N); standard error per spin =
`sqrt(blockedVar/50)/N` with the blocked variance the divisor-49 sample
variance of the block means; and autocorrelation time =
`0.5·blocksize·blockedVar/unblockedVar` with the unblocked variance the
divisor-`(retained−1)` sample variance of the retained samples. -/
theorem C7_output_energy (e : ℕ → ℂ) (ne nspins : ℕ) (hne : 50 ≤ ne) :
    (outputEnergy e ne nspins).1 = specRetainedMean e ne / nspins ∧
      (outputEnergy e ne nspins).1
        = ((∑ i ∈ Finset.range 50, specBlockMean e ne i) / 50) / nspins ∧
      (outputEnergy e ne nspins).2.1
        = Real.sqrt (specBlockedVar e ne / 50) / nspins ∧
      (outputEnergy e ne nspins).2.2
        = 0.5 * ((ne / 50 : ℕ) : ℝ) * specBlockedVar e ne / specUnblockedVar e ne := by
  have hbs : 1 ≤ ne / 50 := (Nat.le_div_iff_mul_le (by norm_num)).mpr (by omega)
  have hbs0 : ((ne / 50 : ℕ) : ℝ) ≠ 0 := Nat.cast_ne_zero.mpr (by omega)
  -- the retained list is the first 50·blocksize samples in order
  have hflat : ((List.range 50).flatMap
        (fun i => (List.range (ne / 50)).map (fun j => i * (ne / 50) + j))).map
          (fun j => (e j).re)
      = (List.range (50 * (ne / 50))).map (fun j => (e j).re) := by
    rw [range_flatten]
  -- welford on the retained list
  have hu := welford_spec ((List.range (50 * (ne / 50))).map (fun j => (e j).re))
  have hulen : ((List.range (50 * (ne / 50))).map (fun j => (e j).re)).length
      = 50 * (ne / 50) := by simp
  have husum : ((List.range (50 * (ne / 50))).map (fun j => (e j).re)).sum
      = ∑ j ∈ Finset.range (50 * (ne / 50)), (e j).re :=
    (finsetRangeSum_eq_listSum _ _).symm
  -- welford on the block means
  have hbw := welford_spec ((List.range 50).map
    (fun i => ((List.range (ne / 50)).map (fun j => (e (i * (ne / 50) + j)).re)).sum
      / ((ne / 50 : ℕ) : ℝ)))
  have hbwlen : ((List.range 50).map
      (fun i => ((List.range (ne / 50)).map (fun j => (e (i * (ne / 50) + j)).re)).sum
        / ((ne / 50 : ℕ) : ℝ))).length = 50 := by simp
  -- block means, listwise, equal the spec block means
  have hbm : ∀ i, ((List.range (ne / 50)).map (fun j => (e (i * (ne / 50) + j)).re)).sum
      / ((ne / 50 : ℕ) : ℝ) = specBlockMean e ne i := by
    intro i
    unfold specBlockMean
    rw [finsetRangeSum_eq_listSum]
  -- sum of the block means list
  have hbmsum : ((List.range 50).map
      (fun i => ((List.range (ne / 50)).map (fun j => (e (i * (ne / 50) + j)).re)).sum
        / ((ne / 50 : ℕ) : ℝ))).sum
      = ∑ i ∈ Finset.range 50, specBlockMean e ne i := by
    rw [show ((List.range 50).map
        (fun i => ((List.range (ne / 50)).map (fun j => (e (i * (ne / 50) + j)).re)).sum
          / ((ne / 50 : ℕ) : ℝ)))
        = ((List.range 50).map (fun i => specBlockMean e ne i)) from
      List.map_congr_left (fun i _ => hbm i)]
    exact (finsetRangeSum_eq_listSum _ _).symm
  -- mean of block means = retained mean
  have hmeq : (∑ i ∈ Finset.range 50, specBlockMean e ne i) / 50
      = specRetainedMean e ne := by
    have h1 : ∑ i ∈ Finset.range 50, specBlockMean e ne i
        = ((List.range 50).map
            (fun i => ((List.range (ne / 50)).map (fun j => (e (i * (ne / 50) + j)).re)).sum
              / ((ne / 50 : ℕ) : ℝ))).sum := by
      rw [finsetRangeSum_eq_listSum 50 (specBlockMean e ne)]
      exact congrArg List.sum (List.map_congr_left (fun i _ => (hbm i).symm))
    have h2 : ((List.range 50).map
          (fun i => ((List.range (ne / 50)).map (fun j => (e (i * (ne / 50) + j)).re)).sum
            / ((ne / 50 : ℕ) : ℝ))).sum
        = ((List.range (50 * (ne / 50))).map (fun j => (e j).re)).sum
          / ((ne / 50 : ℕ) : ℝ) := by
      rw [listSum_map_div, blocksum_eq (ne / 50) (fun j => (e j).re) 50]
    rw [h1, h2]
    unfold specRetainedMean
    rw [finsetRangeSum_eq_listSum (50 * (ne / 50)) (fun j => (e j).re), div_div]
    congr 1
    push_cast
    ring
  -- welford list results, rewritten into spec form
  have huflat : welford (((List.range 50).flatMap
        (fun i => (List.range (ne / 50)).map (fun j => i * (ne / 50) + j))).map
      (fun j => (e j).re))
      = welford ((List.range (50 * (ne / 50))).map (fun j => (e j).re)) :=
    congrArg welford hflat
  have hU2 : (welford ((List.range (50 * (ne / 50))).map (fun j => (e j).re))).2.1
      = ∑ j ∈ Finset.range (50 * (ne / 50)), ((e j).re - specRetainedMean e ne) ^ 2 := by
    rw [hu]
    show (((List.range (50 * (ne / 50))).map (fun j => (e j).re)).map
        (fun x => (x - ((List.range (50 * (ne / 50))).map (fun j => (e j).re)).sum
          / (((List.range (50 * (ne / 50))).map (fun j => (e j).re)).length : ℝ)) ^ 2)).sum = _
    rw [husum, hulen, List.map_map, ← finsetRangeSum_eq_listSum]
    unfold specRetainedMean
    rfl
  have hB1 : (welford ((List.range 50).map
      (fun i => ((List.range (ne / 50)).map (fun j => (e (i * (ne / 50) + j)).re)).sum
        / ((ne / 50 : ℕ) : ℝ)))).1 = specRetainedMean e ne := by
    rw [hbw]
    show ((List.range 50).map
        (fun i => ((List.range (ne / 50)).map (fun j => (e (i * (ne / 50) + j)).re)).sum
          / ((ne / 50 : ℕ) : ℝ))).sum
      / (((List.range 50).map
        (fun i => ((List.range (ne / 50)).map (fun j => (e (i * (ne / 50) + j)).re)).sum
          / ((ne / 50 : ℕ) : ℝ))).length : ℝ) = _
    rw [hbmsum, hbwlen, Nat.cast_ofNat, hmeq]
  have hB2 : (welford ((List.range 50).map
      (fun i => ((List.range (ne / 50)).map (fun j => (e (i * (ne / 50) + j)).re)).sum
        / ((ne / 50 : ℕ) : ℝ)))).2.1
      = ∑ i ∈ Finset.range 50,
          (specBlockMean e ne i - (∑ i ∈ Finset.range 50, specBlockMean e ne i) / 50) ^ 2 := by
    rw [hbw]
    show (((List.range 50).map
        (fun i => ((List.range (ne / 50)).map (fun j => (e (i * (ne / 50) + j)).re)).sum
          / ((ne / 50 : ℕ) : ℝ))).map
        (fun x => (x - ((List.range 50).map
            (fun i => ((List.range (ne / 50)).map (fun j => (e (i * (ne / 50) + j)).re)).sum
              / ((ne / 50 : ℕ) : ℝ))).sum
          / (((List.range 50).map
            (fun i => ((List.range (ne / 50)).map (fun j => (e (i * (ne / 50) + j)).re)).sum
              / ((ne / 50 : ℕ) : ℝ))).length : ℝ)) ^ 2)).sum = _
    rw [hbmsum, hbwlen, Nat.cast_ofNat, List.map_map, ← finsetRangeSum_eq_listSum]
    refine Finset.sum_congr rfl (fun i _ => ?_)
    simp only [Function.comp_apply]
    rw [hbm i]
  refine ⟨?_, ?_, ?_, ?_⟩
  · show (welford ((List.range 50).map
        (fun i => ((List.range (ne / 50)).map (fun j => (e (i * (ne / 50) + j)).re)).sum
          / ((ne / 50 : ℕ) : ℝ)))).1 / (nspins : ℝ) = _
    rw [hB1]
  · show (welford ((List.range 50).map
        (fun i => ((List.range (ne / 50)).map (fun j => (e (i * (ne / 50) + j)).re)).sum
          / ((ne / 50 : ℕ) : ℝ)))).1 / (nspins : ℝ) = _
    rw [hB1, hmeq]
  · show Real.sqrt ((welford ((List.range 50).map
        (fun i => ((List.range (ne / 50)).map (fun j => (e (i * (ne / 50) + j)).re)).sum
          / ((ne / 50 : ℕ) : ℝ)))).2.1 / (((50 : ℕ) : ℤ) - 1 : ℤ) / ((50 : ℕ) : ℝ))
        / (nspins : ℝ) = _
    rw [hB2]
    unfold specBlockedVar
    norm_num
  · show 0.5 * ((ne / 50 : ℕ) : ℝ)
        * ((welford ((List.range 50).map
            (fun i => ((List.range (ne / 50)).map (fun j => (e (i * (ne / 50) + j)).re)).sum
              / ((ne / 50 : ℕ) : ℝ)))).2.1 / (((50 : ℕ) : ℤ) - 1 : ℤ))
        / ((welford (((List.range 50).flatMap
            (fun i => (List.range (ne / 50)).map (fun j => i * (ne / 50) + j))).map
          (fun j => (e j).re))).2.1 / (((50 * (ne / 50) : ℕ) : ℤ) - 1 : ℤ)) = _
    rw [huflat, hU2, hB2]
    unfold specBlockedVar specUnblockedVar
    norm_num

/-- Zero energy record used by the C7 witness. -/
def energyW : ℕ → ℂ := fun _ => 0

theorem C7_witness :
    (50 : ℕ) ≤ 50 ∧
      ((outputEnergy energyW 50 1).1 = specRetainedMean energyW 50 / ((1 : ℕ) : ℝ) ∧
        (outputEnergy energyW 50 1).1
          = ((∑ i ∈ Finset.range 50, specBlockMean energyW 50 i) / 50) / ((1 : ℕ) : ℝ) ∧
        (outputEnergy energyW 50 1).2.1
          = Real.sqrt (specBlockedVar energyW 50 / 50) / ((1 : ℕ) : ℝ) ∧
        (outputEnergy energyW 50 1).2.2
          = 0.5 * ((50 / 50 : ℕ) : ℝ) * specBlockedVar energyW 50
            / specUnblockedVar energyW 50) :=
  ⟨by decide, C7_output_energy energyW 50 1 (by decide)⟩

/-- `Heisenberg1d::FindConn` (`heisenberg1d.cc` lines 53-86): the diagonal
`Jz·(Σ_{i<n-1} state[i]·state[i+1] + [pbc] state[n-1]·state[0])` with an
empty flip list, followed by a two-site flip entry with matrix element −2 for
every bond with unequal spins (the wrap bond last, when periodic). -/
noncomputable def heis1dFindConn (nspins : ℕ) (jz : ℝ) (pbc : Bool) (s : ℕ → ℤ) :
    List (List ℕ) × List ℂ :=
  (([] : List ℕ) ::
      ((List.range (nspins - 1)).filterMap
          (fun i => if s i ≠ s (i + 1) then some [i, i + 1] else none)
        ++ (if pbc ∧ s (nspins - 1) ≠ s 0 then [[nspins - 1, 0]] else [])),
    (((∑ i ∈ Finset.range (nspins - 1), ((s i * s (i + 1) : ℤ) : ℂ))
        + if pbc then ((s (nspins - 1) * s 0 : ℤ) : ℂ) else 0) * (jz : ℝ)) ::
      ((List.range (nspins - 1)).filterMap
          (fun i => if s i ≠ s (i + 1) then some ((-2 : ℂ)) else none)
        ++ (if pbc ∧ s (nspins - 1) ≠ s 0 then [(-2 : ℂ)] else [])))

/-- The diagonal element of `Heisenberg1d::FindConn`: the first matrix
element (empty flip list). -/
noncomputable def heis1dDiag (nspins : ℕ) (jz : ℝ) (pbc : Bool) (s : ℕ → ℤ) : ℂ :=
  (heis1dFindConn nspins jz pbc s).2.headI

/-- `Heisenberg2d::PbcH` (`part_000` lines 122-129): horizontal neighbor with
periodic column wrap. -/
def pbcH (l : ℤ) (nn s : ℤ) : ℤ :=
  if s % l = 0 ∧ nn = s - 1 then s + l - 1
  else if (s + 1) % l = 0 ∧ nn = s + 1 then s - l + 1
  else nn

/-- `Heisenberg2d::PbcV` (`part_000` lines 132-139): vertical neighbor with
periodic row wrap. -/
def pbcV (nspins nn : ℤ) : ℤ :=
  if nn ≥ nspins then nn - nspins
  else if nn < 0 then nspins + nn
  else nn

/-- `Heisenberg2d::H` (`part_000` lines 142-149): horizontal neighbor, open
boundary, sentinel −1. -/
def hOpen (l : ℤ) (nn s : ℤ) : ℤ :=
  if s % l = 0 ∧ nn = s - 1 then -1
  else if (s + 1) % l = 0 ∧ nn = s + 1 then -1
  else nn

/-- `Heisenberg2d::V` (`part_000` lines 153-160): vertical neighbor, open
boundary, sentinel −1. -/
def vOpen (nspins nn : ℤ) : ℤ :=
  if nn ≥ nspins then -1 else if nn < 0 then -1 else nn

/-- The neighbor vector `nn_[i]` of `Heisenberg2d::InitLattice` (`part_000`
lines 65-70): left, right, up, down. -/
def nnList (nspins l : ℤ) (pbc : Bool) (i : ℤ) : List ℤ :=
  [if pbc then pbcH l (i - 1) i else hOpen l (i - 1) i,
    if pbc then pbcH l (i + 1) i else hOpen l (i + 1) i,
    if pbc then pbcV nspins (i - l) else vOpen nspins (i - l),
    if pbc then pbcV nspins (i + l) else vOpen nspins (i + l)]

/-- The bond list of `Heisenberg2d::InitLattice` (`part_000` lines 72-79):
for every site `i` and every neighbor `j` of `i` with `i < j`, the pair
`(i, j)`, in order. The constructor computes `l = √nspins` and aborts unless
`l·l = nspins` (lines 57-60), so the theorems instantiate
`nspins := l·l`. -/
def bonds2d (nspins l : ℤ) (pbc : Bool) : List (ℕ × ℕ) :=
  (List.range nspins.toNat).flatMap (fun i =>
    (nnList nspins l pbc (i : ℤ)).filterMap (fun j =>
      if (i : ℤ) < j then some ((i : ℕ), j.toNat) else none))

/-- The diagonal element of `Heisenberg2d::FindConn` (`part_000` lines
94-100): `Jz·Σ_{bonds (i,j)} state[i]·state[j]` over the bond list. -/
noncomputable def heis2dDiag (nspins l : ℤ) (pbc : Bool) (jz : ℝ) (s : ℕ → ℤ) : ℂ :=
  (((bonds2d nspins l pbc).map (fun p => ((s p.1 * s p.2 : ℤ) : ℂ))).sum) * (jz : ℝ)

/-- Spec-side: the undirected nearest-neighbor pairs of a 1D chain of
`nspins` sites, lower index first: consecutive pairs, plus the wrap pair
`{0, nspins−1}` when periodic (a set, so each undirected pair appears
once). -/
def nnPairs1d (nspins : ℕ) (pbc : Bool) : Finset (ℕ × ℕ) :=
  (Finset.range (nspins - 1)).image (fun i => (i, i + 1)) ∪
    (if pbc then {(0, nspins - 1)} else ∅)

/-- Spec-side: `Jz` times the sum of `state[i]·state[j]` over the undirected
nearest-neighbor pairs of the 1D chain. -/
noncomputable def specDiag1d (nspins : ℕ) (jz : ℝ) (pbc : Bool) (s : ℕ → ℤ) : ℂ :=
  (∑ p ∈ nnPairs1d nspins pbc, ((s p.1 * s p.2 : ℤ) : ℂ)) * (jz : ℝ)

/-- Spec-side: the undirected nearest-neighbor pairs of the `l×l` square
grid, lower index first; site `(r, c)` is index `r·l + c`. Horizontal pairs
`(r·l+c, r·l+c+1)` plus the row wrap `(r·l, r·l+(l−1))` when periodic;
vertical pairs `(r·l+c, (r+1)·l+c)` plus the column wrap `(c, (l−1)·l+c)`
when periodic. A set, so each undirected pair appears once. -/
def nnPairs2d (l : ℕ) (pbc : Bool) : Finset (ℕ × ℕ) :=
  ((Finset.range l ×ˢ Finset.range (l - 1)).image
      (fun rc => (rc.1 * l + rc.2, rc.1 * l + rc.2 + 1)) ∪
    (if pbc then (Finset.range l).image (fun r => (r * l, r * l + (l - 1))) else ∅)) ∪
  ((Finset.range (l - 1) ×ˢ Finset.range l).image
      (fun rc => (rc.1 * l + rc.2, (rc.1 + 1) * l + rc.2)) ∪
    (if pbc then (Finset.range l).image (fun c => (c, (l - 1) * l + c)) else ∅))

/-- Spec-side: `Jz` times the sum of `state[i]·state[j]` over the undirected
nearest-neighbor pairs of the `l×l` grid. -/
noncomputable def specDiag2d (l : ℕ) (pbc : Bool) (jz : ℝ) (s : ℕ → ℤ) : ℂ :=
  (∑ p ∈ nnPairs2d l pbc, ((s p.1 * s p.2 : ℤ) : ℂ)) * (jz : ℝ)

/-- Claim C6 counterexample: for the 1D Heisenberg chain with periodic
boundary and only 2 sites (all spins up, `Jz = 1`), `FindConn` returns
diagonal 2 — the single undirected nearest-neighbor pair `{0,1}` is counted
twice — while the sum over undirected nearest-neighbor pairs (each once) is
1. -/
theorem C6_counterexample :
    heis1dDiag 2 1 true (fun _ => 1) = 2 ∧ specDiag1d 2 1 true (fun _ => 1) = 1 ∧
      heis1dDiag 2 1 true (fun _ => 1) ≠ specDiag1d 2 1 true (fun _ => 1) := by
  have h1 : heis1dDiag 2 1 true (fun _ => 1) = 2 := by
    show ((∑ i ∈ Finset.range 1, ((1 * 1 : ℤ) : ℂ))
        + if true then ((1 * 1 : ℤ) : ℂ) else 0) * ((1 : ℝ) : ℂ) = 2
    norm_num
  have h2 : specDiag1d 2 1 true (fun _ => 1) = 1 := by
    unfold specDiag1d
    rw [show nnPairs1d 2 true = {(0, 1)} from by decide]
    norm_num
  refine ⟨h1, h2, ?_⟩
  rw [h1, h2]
  norm_num

theorem heis1d_diag_spec (ns : ℕ) (jz : ℝ) (pbc : Bool) (s : ℕ → ℤ)
    (h1 : pbc = true → 3 ≤ ns) :
    heis1dDiag ns jz pbc s = specDiag1d ns jz pbc s := by
  have himg : ∑ p ∈ (Finset.range (ns - 1)).image (fun i => (i, i + 1)),
      ((s p.1 * s p.2 : ℤ) : ℂ)
      = ∑ i ∈ Finset.range (ns - 1), ((s i * s (i + 1) : ℤ) : ℂ) :=
    Finset.sum_image (by
      intro x _ y _ h
      exact (Prod.ext_iff.mp h).1)
  cases pbc with
  | false =>
    unfold heis1dDiag heis1dFindConn specDiag1d nnPairs1d
    simp only [List.headI_cons, Bool.false_eq_true, if_false, Finset.union_empty]
    rw [himg]
    simp
  | true =>
    have hns := h1 rfl
    have hdisj : Disjoint ((Finset.range (ns - 1)).image (fun i => (i, i + 1)))
        ({((0 : ℕ), ns - 1)} : Finset (ℕ × ℕ)) := by
      rw [Finset.disjoint_left]
      rintro p hp hq
      rw [Finset.mem_image] at hp
      obtain ⟨i, hi, rfl⟩ := hp
      rw [Finset.mem_singleton] at hq
      have h2 := (Prod.ext_iff.mp hq).1
      have h3 := (Prod.ext_iff.mp hq).2
      simp only at h2 h3
      rw [Finset.mem_range] at hi
      omega
    unfold heis1dDiag heis1dFindConn specDiag1d nnPairs1d
    simp only [List.headI_cons, if_pos rfl, if_true]
    rw [Finset.sum_union hdisj, himg, Finset.sum_singleton]
    push_cast
    ring

theorem listSum_flatMap (l : List ℕ) (g : ℕ → List ℂ) :
    (l.flatMap g).sum = (l.map (fun a => (g a).sum)).sum := by
  induction l with
  | nil => rfl
  | cons x l ih => simp [List.flatMap_cons, List.sum_append, ih]

theorem heis2dDiag_sum (l : ℕ) (pbc : Bool) (jz : ℝ) (s : ℕ → ℤ) :
    heis2dDiag ((l : ℤ) * l) l pbc jz s
      = (∑ i ∈ Finset.range (l * l),
          (((nnList ((l : ℤ) * l) l pbc (i : ℤ)).filterMap
            (fun j => if (i : ℤ) < j then some ((i : ℕ), j.toNat) else none)).map
              (fun p => ((s p.1 * s p.2 : ℤ) : ℂ))).sum) * ((jz : ℝ) : ℂ) := by
  unfold heis2dDiag bonds2d
  rw [List.map_flatMap, listSum_flatMap]
  rw [show ((l : ℤ) * l).toNat = l * l from by rw [← Nat.cast_mul, Int.toNat_natCast]]
  rw [finsetRangeSum_eq_listSum]

theorem innerSum_eq (i : ℕ) (A B C D : ℤ) (f : ℕ × ℕ → ℂ) :
    (([A, B, C, D].filterMap
        (fun j => if (i : ℤ) < j then some ((i : ℕ), j.toNat) else none)).map f).sum
      = (if (i : ℤ) < A then f (i, A.toNat) else 0)
        + (if (i : ℤ) < B then f (i, B.toNat) else 0)
        + (if (i : ℤ) < C then f (i, C.toNat) else 0)
        + (if (i : ℤ) < D then f (i, D.toNat) else 0) := by
  by_cases hA : (i : ℤ) < A <;> by_cases hB : (i : ℤ) < B <;>
    by_cases hC : (i : ℤ) < C <;> by_cases hD : (i : ℤ) < D <;>
      simp [List.filterMap_cons, hA, hB, hC, hD] <;> ring

theorem pbcH_left (l i : ℤ) :
    pbcH l (i - 1) i = if i % l = 0 then i + l - 1 else i - 1 := by
  unfold pbcH
  by_cases h : i % l = 0
  · rw [if_pos ⟨h, rfl⟩, if_pos h]
  · rw [if_neg (fun hc => h hc.1), if_neg (by rintro ⟨-, h2⟩; omega), if_neg h]

theorem pbcH_right (l i : ℤ) :
    pbcH l (i + 1) i = if (i + 1) % l = 0 then i - l + 1 else i + 1 := by
  unfold pbcH
  rw [if_neg (by rintro ⟨-, h2⟩; omega)]
  by_cases h : (i + 1) % l = 0
  · rw [if_pos ⟨h, rfl⟩, if_pos h]
  · rw [if_neg (fun hc => h hc.1), if_neg h]

theorem pbcV_up (ns l i : ℤ) (hi : i < ns) (hl : 0 ≤ l) :
    pbcV ns (i - l) = if i - l < 0 then ns + (i - l) else i - l := by
  unfold pbcV
  rw [if_neg (by omega)]

theorem pbcV_down (ns l i : ℤ) (hi : 0 ≤ i) (hl : 0 ≤ l) :
    pbcV ns (i + l) = if ns ≤ i + l then i + l - ns else i + l := by
  unfold pbcV
  by_cases h : ns ≤ i + l
  · rw [if_pos (by omega), if_pos h]
  · rw [if_neg (by omega), if_neg (by omega), if_neg h]

theorem hOpen_left (l i : ℤ) :
    hOpen l (i - 1) i = if i % l = 0 then -1 else i - 1 := by
  unfold hOpen
  by_cases h : i % l = 0
  · rw [if_pos ⟨h, rfl⟩, if_pos h]
  · rw [if_neg (fun hc => h hc.1), if_neg (by rintro ⟨-, h2⟩; omega), if_neg h]

theorem hOpen_right (l i : ℤ) :
    hOpen l (i + 1) i = if (i + 1) % l = 0 then -1 else i + 1 := by
  unfold hOpen
  rw [if_neg (by rintro ⟨-, h2⟩; omega)]
  by_cases h : (i + 1) % l = 0
  · rw [if_pos ⟨h, rfl⟩, if_pos h]
  · rw [if_neg (fun hc => h hc.1), if_neg h]

theorem vOpen_up (ns l i : ℤ) (hi : i < ns) (hl : 0 ≤ l) :
    vOpen ns (i - l) = if i - l < 0 then -1 else i - l := by
  unfold vOpen
  rw [if_neg (by omega)]

theorem vOpen_down (ns l i : ℤ) (hi : 0 ≤ i) (hl : 0 ≤ l) :
    vOpen ns (i + l) = if ns ≤ i + l then -1 else i + l := by
  unfold vOpen
  by_cases h : ns ≤ i + l
  · rw [if_pos (by omega : i + l ≥ ns), if_pos h]
  · rw [if_neg (by omega : ¬(i + l ≥ ns)), if_neg (by omega), if_neg h]

theorem ite_contrib (i : ℕ) (P : Prop) [Decidable P] (x y : ℤ) (v : ℕ)
    (f : ℕ × ℕ → ℂ) (hx : P → ((i : ℤ) < x ∧ x.toNat = v))
    (hy : ¬P → ¬((i : ℤ) < y)) :
    (if (i : ℤ) < (if P then x else y) then f (i, (if P then x else y).toNat) else 0)
      = if P then f (i, v) else 0 := by
  by_cases h : P
  · simp only [if_pos h]
    rw [if_pos (hx h).1, (hx h).2]
  · simp only [if_neg h]
    rw [if_neg (hy h)]

theorem ite_contrib' (i : ℕ) (P : Prop) [Decidable P] (x y : ℤ) (v : ℕ)
    (f : ℕ × ℕ → ℂ) (hx : P → ¬((i : ℤ) < x))
    (hy : ¬P → ((i : ℤ) < y ∧ y.toNat = v)) :
    (if (i : ℤ) < (if P then x else y) then f (i, (if P then x else y).toNat) else 0)
      = if P then 0 else f (i, v) := by
  by_cases h : P
  · simp only [if_pos h]
    rw [if_neg (hx h)]
  · simp only [if_neg h]
    rw [if_pos (hy h).1, (hy h).2]

theorem ite_contrib0 (i : ℕ) (P : Prop) [Decidable P] (x y : ℤ)
    (f : ℕ × ℕ → ℂ) (hx : P → ¬((i : ℤ) < x)) (hy : ¬P → ¬((i : ℤ) < y)) :
    (if (i : ℤ) < (if P then x else y) then f (i, (if P then x else y).toNat) else 0)
      = 0 := by
  by_cases h : P
  · simp only [if_pos h]
    rw [if_neg (hx h)]
  · simp only [if_neg h]
    rw [if_neg (hy h)]

theorem inner_pbc (l : ℕ) (hl : 3 ≤ l) (f : ℕ × ℕ → ℂ) (i : ℕ) (hi : i < l * l) :
    (((nnList ((l : ℤ) * l) l true (i : ℤ)).filterMap
        (fun j => if (i : ℤ) < j then some ((i : ℕ), j.toNat) else none)).map f).sum
      = (if i % l = 0 then f (i, i + l - 1) else 0)
        + (if (i + 1) % l = 0 then 0 else f (i, i + 1))
        + (if i < l then f (i, l * l - l + i) else 0)
        + (if i + l < l * l then f (i, i + l) else 0) := by
  have hcast : ((l : ℤ) * l) = ((l * l : ℕ) : ℤ) := by push_cast; rfl
  have hiZ : (i : ℤ) < (l : ℤ) * l := by exact_mod_cast hi
  have hll1 : l < l * l := by nlinarith
  have hm1 : ((i : ℤ) % (l : ℤ) = 0) ↔ i % l = 0 := by
    rw [show ((i : ℤ) % (l : ℤ)) = ((i % l : ℕ) : ℤ) from by push_cast; rfl]
    exact Int.natCast_eq_zero
  have hm2 : (((i : ℤ) + 1) % (l : ℤ) = 0) ↔ (i + 1) % l = 0 := by
    rw [show (((i : ℤ) + 1) % (l : ℤ)) = (((i + 1) % l : ℕ) : ℤ) from by push_cast; rfl]
    exact Int.natCast_eq_zero
  have hlist : nnList ((l : ℤ) * l) l true (i : ℤ)
      = [pbcH l ((i : ℤ) - 1) (i : ℤ), pbcH l ((i : ℤ) + 1) (i : ℤ),
          pbcV ((l : ℤ) * l) ((i : ℤ) - l), pbcV ((l : ℤ) * l) ((i : ℤ) + l)] := rfl
  rw [hlist, innerSum_eq, pbcH_left, pbcH_right,
    pbcV_up ((l : ℤ) * l) l (i : ℤ) hiZ (by positivity),
    pbcV_down ((l : ℤ) * l) l (i : ℤ) (by positivity) (by positivity)]
  rw [hcast] at hiZ
  rw [hcast]
  rw [ite_contrib i ((i : ℤ) % (l : ℤ) = 0) ((i : ℤ) + l - 1) ((i : ℤ) - 1) (i + l - 1) f
      (fun _ => ⟨by omega, by omega⟩) (fun _ => by omega),
    ite_contrib' i (((i : ℤ) + 1) % (l : ℤ) = 0) ((i : ℤ) - l + 1) ((i : ℤ) + 1) (i + 1) f
      (fun _ => by omega) (fun _ => ⟨by omega, by omega⟩),
    ite_contrib i ((i : ℤ) - l < 0) (((l * l : ℕ) : ℤ) + ((i : ℤ) - l)) ((i : ℤ) - l)
      (l * l - l + i) f (fun _ => ⟨by omega, by omega⟩) (fun _ => by omega),
    ite_contrib' i (((l * l : ℕ) : ℤ) ≤ (i : ℤ) + l) ((i : ℤ) + l - ((l * l : ℕ) : ℤ))
      ((i : ℤ) + l) (i + l) f (fun _ => by omega) (fun _ => ⟨by omega, by omega⟩)]
  have hup : ((i : ℤ) - l < 0) ↔ i < l := by omega
  have hdn : (((l * l : ℕ) : ℤ) ≤ (i : ℤ) + l) ↔ ¬(i + l < l * l) := by omega
  rw [if_congr hm1 rfl rfl, if_congr hm2 rfl rfl, if_congr hup rfl rfl,
    if_congr hdn rfl rfl, ite_not]

theorem inner_open (l : ℕ) (f : ℕ × ℕ → ℂ) (i : ℕ) (hi : i < l * l) :
    (((nnList ((l : ℤ) * l) l false (i : ℤ)).filterMap
        (fun j => if (i : ℤ) < j then some ((i : ℕ), j.toNat) else none)).map f).sum
      = (if (i + 1) % l = 0 then 0 else f (i, i + 1))
        + (if i + l < l * l then f (i, i + l) else 0) := by
  have hcast : ((l : ℤ) * l) = ((l * l : ℕ) : ℤ) := by push_cast; rfl
  have hiZ : (i : ℤ) < (l : ℤ) * l := by exact_mod_cast hi
  have hcase : l * l = 0 ∧ l = 0 ∨ 1 ≤ l := by
    rcases Nat.eq_zero_or_pos l with h | h
    · exact Or.inl ⟨by rw [h], h⟩
    · exact Or.inr h
  have hm2 : (((i : ℤ) + 1) % (l : ℤ) = 0) ↔ (i + 1) % l = 0 := by
    rw [show (((i : ℤ) + 1) % (l : ℤ)) = (((i + 1) % l : ℕ) : ℤ) from by push_cast; rfl]
    exact Int.natCast_eq_zero
  have hlist : nnList ((l : ℤ) * l) l false (i : ℤ)
      = [hOpen l ((i : ℤ) - 1) (i : ℤ), hOpen l ((i : ℤ) + 1) (i : ℤ),
          vOpen ((l : ℤ) * l) ((i : ℤ) - l), vOpen ((l : ℤ) * l) ((i : ℤ) + l)] := rfl
  rw [hlist, innerSum_eq, hOpen_left, hOpen_right,
    vOpen_up ((l : ℤ) * l) l (i : ℤ) hiZ (by positivity),
    vOpen_down ((l : ℤ) * l) l (i : ℤ) (by positivity) (by positivity)]
  rw [hcast] at hiZ
  rw [hcast]
  rw [ite_contrib0 i ((i : ℤ) % (l : ℤ) = 0) (-1) ((i : ℤ) - 1) f
      (fun _ => by omega) (fun _ => by omega),
    ite_contrib' i (((i : ℤ) + 1) % (l : ℤ) = 0) (-1) ((i : ℤ) + 1) (i + 1) f
      (fun _ => by omega) (fun _ => ⟨by omega, by omega⟩),
    ite_contrib0 i ((i : ℤ) - l < 0) (-1) ((i : ℤ) - l) f
      (fun _ => by omega) (fun _ => by omega),
    ite_contrib' i (((l * l : ℕ) : ℤ) ≤ (i : ℤ) + l) (-1) ((i : ℤ) + l) (i + l) f
      (fun _ => by omega) (fun _ => ⟨by omega, by omega⟩)]
  have hdn : (((l * l : ℕ) : ℤ) ≤ (i : ℤ) + l) ↔ ¬(i + l < l * l) := by omega
  rw [if_congr hm2 rfl rfl, if_congr hdn rfl rfl, ite_not]
  ring

theorem rowcol_inj (l r1 c1 r2 c2 : ℕ) (hc1 : c1 < l) (hc2 : c2 < l)
    (h : r1 * l + c1 = r2 * l + c2) : r1 = r2 ∧ c1 = c2 := by
  have h1 : (l * r1 + c1) % l = c1 % l := Nat.mul_add_mod l r1 c1
  have h2 : (l * r2 + c2) % l = c2 % l := Nat.mul_add_mod l r2 c2
  have e1 : l * r1 + c1 = r1 * l + c1 := by ring
  have e2 : l * r2 + c2 = r2 * l + c2 := by ring
  have hc1m : c1 % l = c1 := Nat.mod_eq_of_lt hc1
  have hc2m : c2 % l = c2 := Nat.mod_eq_of_lt hc2
  have hcc : c1 = c2 := by
    rw [e1, hc1m] at h1
    rw [e2, hc2m] at h2
    rw [h] at h1
    omega
  refine ⟨?_, hcc⟩
  have hr : r1 * l = r2 * l := by omega
  exact Nat.eq_of_mul_eq_mul_right (by omega) hr

theorem sum_wrapH (l : ℕ) (hl : 3 ≤ l) (f : ℕ × ℕ → ℂ) :
    ∑ i ∈ Finset.range (l * l), (if i % l = 0 then f (i, i + l - 1) else 0)
      = ∑ r ∈ Finset.range l, f (r * l, r * l + (l - 1)) := by
  rw [← Finset.sum_filter]
  refine Finset.sum_nbij' (fun i => i / l) (fun r => r * l) ?_ ?_ ?_ ?_ ?_
  · intro a ha
    rw [Finset.mem_filter, Finset.mem_range] at ha
    rw [Finset.mem_range]
    exact (Nat.div_lt_iff_lt_mul (by omega)).mpr ha.1
  · intro r hr
    rw [Finset.mem_range] at hr
    rw [Finset.mem_filter, Finset.mem_range]
    exact ⟨(Nat.mul_lt_mul_right (show 0 < l by omega)).mpr hr, Nat.mul_mod_left r l⟩
  · intro a ha
    rw [Finset.mem_filter] at ha
    exact Nat.div_mul_cancel (Nat.dvd_of_mod_eq_zero ha.2)
  · intro r _
    exact Nat.mul_div_cancel r (show 0 < l by omega)
  · intro a ha
    rw [Finset.mem_filter] at ha
    have h2 : a / l * l = a := Nat.div_mul_cancel (Nat.dvd_of_mod_eq_zero ha.2)
    rw [h2]
    congr 1
    exact Prod.ext rfl (by omega)

theorem sum_normH (l : ℕ) (f : ℕ × ℕ → ℂ) :
    ∑ i ∈ Finset.range (l * l), (if (i + 1) % l = 0 then 0 else f (i, i + 1))
      = ∑ rc ∈ Finset.range l ×ˢ Finset.range (l - 1),
          f (rc.1 * l + rc.2, rc.1 * l + rc.2 + 1) := by
  have hswap : ∀ i : ℕ, (if (i + 1) % l = 0 then (0 : ℂ) else f (i, i + 1))
      = (if ¬((i + 1) % l = 0) then f (i, i + 1) else 0) := by
    intro i
    by_cases h : (i + 1) % l = 0 <;> simp [h]
  simp only [hswap]
  rw [← Finset.sum_filter]
  refine Finset.sum_nbij' (fun i => (i / l, i % l)) (fun rc => rc.1 * l + rc.2) ?_ ?_ ?_ ?_ ?_
  · intro a ha
    dsimp only
    rw [Finset.mem_filter, Finset.mem_range] at ha
    have hl0 : 0 < l := by
      rcases Nat.eq_zero_or_pos l with h | h
      · subst h
        omega
      · exact h
    rw [Finset.mem_product, Finset.mem_range, Finset.mem_range]
    refine ⟨(Nat.div_lt_iff_lt_mul hl0).mpr ha.1, ?_⟩
    have hmod := Nat.mod_lt a hl0
    by_contra hge
    have heq : a % l = l - 1 := by omega
    have hdm := Nat.div_add_mod a l
    have hstep : a + 1 = l * (a / l + 1) := by
      rw [Nat.mul_add, Nat.mul_one]
      omega
    have : (a + 1) % l = 0 := by
      rw [hstep, Nat.mul_mod_right]
    exact ha.2 this
  · intro rc hrc
    dsimp only
    rw [Finset.mem_product, Finset.mem_range, Finset.mem_range] at hrc
    rw [Finset.mem_filter, Finset.mem_range]
    have h1 : (rc.1 + 1) * l ≤ l * l := Nat.mul_le_mul_right l (by omega)
    have h2 : (rc.1 + 1) * l = rc.1 * l + l := by ring
    refine ⟨by omega, ?_⟩
    have h3 : rc.1 * l + rc.2 + 1 = l * rc.1 + (rc.2 + 1) := by ring
    rw [h3, Nat.mul_add_mod, Nat.mod_eq_of_lt (by omega)]
    omega
  · intro a _
    show a / l * l + a % l = a
    rw [mul_comm]
    exact Nat.div_add_mod a l
  · intro rc hrc
    rw [Finset.mem_product, Finset.mem_range, Finset.mem_range] at hrc
    have hl0 : 0 < l := by omega
    have hdiv : (rc.1 * l + rc.2) / l = rc.1 := by
      rw [show rc.1 * l + rc.2 = l * rc.1 + rc.2 from by ring, Nat.mul_add_div hl0,
        Nat.div_eq_of_lt (by omega)]
      omega
    have hmod : (rc.1 * l + rc.2) % l = rc.2 := by
      rw [show rc.1 * l + rc.2 = l * rc.1 + rc.2 from by ring, Nat.mul_add_mod,
        Nat.mod_eq_of_lt (by omega)]
    dsimp only
    rw [hdiv, hmod]
  · intro a _
    have hdm : a / l * l + a % l = a := by
      rw [mul_comm]
      exact Nat.div_add_mod a l
    dsimp only
    congr 1
    exact Prod.ext (by omega) (by omega)

theorem sum_wrapV (l : ℕ) (hl : 3 ≤ l) (f : ℕ × ℕ → ℂ) :
    ∑ i ∈ Finset.range (l * l), (if i < l then f (i, l * l - l + i) else 0)
      = ∑ c ∈ Finset.range l, f (c, (l - 1) * l + c) := by
  rw [← Finset.sum_filter]
  have hset : (Finset.range (l * l)).filter (fun i => i < l) = Finset.range l := by
    ext i
    simp only [Finset.mem_filter, Finset.mem_range]
    constructor
    · exact fun h => h.2
    · intro h
      have h1 : l < l * l := by nlinarith
      exact ⟨by omega, h⟩
  rw [hset]
  refine Finset.sum_congr rfl (fun c _ => ?_)
  congr 1
  refine Prod.ext rfl ?_
  show l * l - l + c = (l - 1) * l + c
  have h2 : (l - 1) * l = l * l - 1 * l := Nat.sub_mul l 1 l
  have h3 : l < l * l := by nlinarith
  omega

theorem sum_normV (l : ℕ) (f : ℕ × ℕ → ℂ) :
    ∑ i ∈ Finset.range (l * l), (if i + l < l * l then f (i, i + l) else 0)
      = ∑ rc ∈ Finset.range (l - 1) ×ˢ Finset.range l,
          f (rc.1 * l + rc.2, (rc.1 + 1) * l + rc.2) := by
  rw [← Finset.sum_filter]
  refine Finset.sum_nbij' (fun i => (i / l, i % l)) (fun rc => rc.1 * l + rc.2) ?_ ?_ ?_ ?_ ?_
  · intro a ha
    dsimp only
    rw [Finset.mem_filter, Finset.mem_range] at ha
    have hl0 : 0 < l := by
      rcases Nat.eq_zero_or_pos l with h | h
      · subst h
        omega
      · exact h
    rw [Finset.mem_product, Finset.mem_range, Finset.mem_range]
    refine ⟨?_, Nat.mod_lt a hl0⟩
    have h1 : a / l * l ≤ a := Nat.div_mul_le_self a l
    have h2 : (a / l + 1) * l = a / l * l + l := by ring
    have h3 : (a / l + 1) * l < l * l := by omega
    have h4 := (Nat.mul_lt_mul_right hl0).mp h3
    omega
  · intro rc hrc
    dsimp only
    rw [Finset.mem_product, Finset.mem_range, Finset.mem_range] at hrc
    rw [Finset.mem_filter, Finset.mem_range]
    have h1 : (rc.1 + 2) * l ≤ l * l := Nat.mul_le_mul_right l (by omega)
    have h2 : (rc.1 + 2) * l = rc.1 * l + l + l := by ring
    omega
  · intro a _
    show a / l * l + a % l = a
    rw [mul_comm]
    exact Nat.div_add_mod a l
  · intro rc hrc
    rw [Finset.mem_product, Finset.mem_range, Finset.mem_range] at hrc
    have hl0 : 0 < l := by omega
    have hdiv : (rc.1 * l + rc.2) / l = rc.1 := by
      rw [show rc.1 * l + rc.2 = l * rc.1 + rc.2 from by ring, Nat.mul_add_div hl0,
        Nat.div_eq_of_lt (by omega)]
      omega
    have hmod : (rc.1 * l + rc.2) % l = rc.2 := by
      rw [show rc.1 * l + rc.2 = l * rc.1 + rc.2 from by ring, Nat.mul_add_mod,
        Nat.mod_eq_of_lt (by omega)]
    dsimp only
    rw [hdiv, hmod]
  · intro a _
    have hdm : a / l * l + a % l = a := by
      rw [mul_comm]
      exact Nat.div_add_mod a l
    have h2 : (a / l + 1) * l = a / l * l + l := by ring
    dsimp only
    congr 1
    exact Prod.ext (by omega) (by omega)

theorem sum_nnPairs2d_pbc (l : ℕ) (hl : 3 ≤ l) (f : ℕ × ℕ → ℂ) :
    ∑ p ∈ nnPairs2d l true, f p
      = (∑ rc ∈ Finset.range l ×ˢ Finset.range (l - 1),
            f (rc.1 * l + rc.2, rc.1 * l + rc.2 + 1))
        + (∑ r ∈ Finset.range l, f (r * l, r * l + (l - 1)))
        + ((∑ rc ∈ Finset.range (l - 1) ×ˢ Finset.range l,
            f (rc.1 * l + rc.2, (rc.1 + 1) * l + rc.2))
          + (∑ c ∈ Finset.range l, f (c, (l - 1) * l + c))) := by
  have hmemHn : ∀ p ∈ (Finset.range l ×ˢ Finset.range (l - 1)).image
      (fun rc => (rc.1 * l + rc.2, rc.1 * l + rc.2 + 1)), p.2 = p.1 + 1 := by
    intro p hp
    rw [Finset.mem_image] at hp
    obtain ⟨rc, _, rfl⟩ := hp
    rfl
  have hmemHw : ∀ p ∈ (Finset.range l).image (fun r => (r * l, r * l + (l - 1))),
      p.2 = p.1 + (l - 1) := by
    intro p hp
    rw [Finset.mem_image] at hp
    obtain ⟨r, _, rfl⟩ := hp
    rfl
  have hmemVn : ∀ p ∈ (Finset.range (l - 1) ×ˢ Finset.range l).image
      (fun rc => (rc.1 * l + rc.2, (rc.1 + 1) * l + rc.2)), p.2 = p.1 + l := by
    intro p hp
    rw [Finset.mem_image] at hp
    obtain ⟨rc, _, rfl⟩ := hp
    show (rc.1 + 1) * l + rc.2 = rc.1 * l + rc.2 + l
    ring
  have hmemVw : ∀ p ∈ (Finset.range l).image (fun c => (c, (l - 1) * l + c)),
      p.2 = p.1 + (l - 1) * l := by
    intro p hp
    rw [Finset.mem_image] at hp
    obtain ⟨c, _, rfl⟩ := hp
    show (l - 1) * l + c = c + (l - 1) * l
    ring
  have hll2 : 2 * l ≤ (l - 1) * l := Nat.mul_le_mul_right l (by omega)
  have d1 : Disjoint
      ((Finset.range l ×ˢ Finset.range (l - 1)).image
        (fun rc => (rc.1 * l + rc.2, rc.1 * l + rc.2 + 1)))
      ((Finset.range l).image (fun r => (r * l, r * l + (l - 1)))) := by
    rw [Finset.disjoint_left]
    intro p hp hq
    have e1 := hmemHn p hp
    have e2 := hmemHw p hq
    omega
  have d2 : Disjoint
      ((Finset.range (l - 1) ×ˢ Finset.range l).image
        (fun rc => (rc.1 * l + rc.2, (rc.1 + 1) * l + rc.2)))
      ((Finset.range l).image (fun c => (c, (l - 1) * l + c))) := by
    rw [Finset.disjoint_left]
    intro p hp hq
    have e1 := hmemVn p hp
    have e2 := hmemVw p hq
    omega
  have d3 : Disjoint
      (((Finset.range l ×ˢ Finset.range (l - 1)).image
          (fun rc => (rc.1 * l + rc.2, rc.1 * l + rc.2 + 1)))
        ∪ ((Finset.range l).image (fun r => (r * l, r * l + (l - 1)))))
      (((Finset.range (l - 1) ×ˢ Finset.range l).image
          (fun rc => (rc.1 * l + rc.2, (rc.1 + 1) * l + rc.2)))
        ∪ ((Finset.range l).image (fun c => (c, (l - 1) * l + c)))) := by
    rw [Finset.disjoint_left]
    intro p hp hq
    rw [Finset.mem_union] at hp hq
    rcases hp with hp | hp <;> rcases hq with hq | hq
    · have e1 := hmemHn p hp
      have e2 := hmemVn p hq
      omega
    · have e1 := hmemHn p hp
      have e2 := hmemVw p hq
      omega
    · have e1 := hmemHw p hp
      have e2 := hmemVn p hq
      omega
    · have e1 := hmemHw p hp
      have e2 := hmemVw p hq
      omega
  have hinjHn : ∀ x ∈ Finset.range l ×ˢ Finset.range (l - 1),
      ∀ y ∈ Finset.range l ×ˢ Finset.range (l - 1),
      (fun rc : ℕ × ℕ => (rc.1 * l + rc.2, rc.1 * l + rc.2 + 1)) x
        = (fun rc : ℕ × ℕ => (rc.1 * l + rc.2, rc.1 * l + rc.2 + 1)) y → x = y := by
    intro x hx y hy h
    rw [Finset.mem_product, Finset.mem_range, Finset.mem_range] at hx hy
    have h1 := (Prod.ext_iff.mp h).1
    dsimp only at h1
    have := rowcol_inj l x.1 x.2 y.1 y.2 (by omega) (by omega) h1
    exact Prod.ext this.1 this.2
  have hinjHw : ∀ x ∈ Finset.range l, ∀ y ∈ Finset.range l,
      (fun r => (r * l, r * l + (l - 1))) x = (fun r => (r * l, r * l + (l - 1))) y
        → x = y := by
    intro x _ y _ h
    have h1 := (Prod.ext_iff.mp h).1
    dsimp only at h1
    exact Nat.eq_of_mul_eq_mul_right (by omega) h1
  have hinjVn : ∀ x ∈ Finset.range (l - 1) ×ˢ Finset.range l,
      ∀ y ∈ Finset.range (l - 1) ×ˢ Finset.range l,
      (fun rc : ℕ × ℕ => (rc.1 * l + rc.2, (rc.1 + 1) * l + rc.2)) x
        = (fun rc : ℕ × ℕ => (rc.1 * l + rc.2, (rc.1 + 1) * l + rc.2)) y → x = y := by
    intro x hx y hy h
    rw [Finset.mem_product, Finset.mem_range, Finset.mem_range] at hx hy
    have h1 := (Prod.ext_iff.mp h).1
    dsimp only at h1
    have := rowcol_inj l x.1 x.2 y.1 y.2 hx.2 hy.2 h1
    exact Prod.ext this.1 this.2
  have hinjVw : ∀ x ∈ Finset.range l, ∀ y ∈ Finset.range l,
      (fun c => ((c : ℕ), (l - 1) * l + c)) x = (fun c => ((c : ℕ), (l - 1) * l + c)) y
        → x = y := by
    intro x _ y _ h
    exact (Prod.ext_iff.mp h).1
  rw [show nnPairs2d l true
      = (((Finset.range l ×ˢ Finset.range (l - 1)).image
            (fun rc => (rc.1 * l + rc.2, rc.1 * l + rc.2 + 1)))
          ∪ ((Finset.range l).image (fun r => (r * l, r * l + (l - 1)))))
        ∪ (((Finset.range (l - 1) ×ˢ Finset.range l).image
            (fun rc => (rc.1 * l + rc.2, (rc.1 + 1) * l + rc.2)))
          ∪ ((Finset.range l).image (fun c => (c, (l - 1) * l + c)))) from by
    unfold nnPairs2d
    rw [if_pos rfl, if_pos rfl]]
  rw [Finset.sum_union d3, Finset.sum_union d1, Finset.sum_union d2,
    Finset.sum_image hinjHn, Finset.sum_image hinjHw, Finset.sum_image hinjVn,
    Finset.sum_image hinjVw]

theorem sum_nnPairs2d_open (l : ℕ) (f : ℕ × ℕ → ℂ) :
    ∑ p ∈ nnPairs2d l false, f p
      = (∑ rc ∈ Finset.range l ×ˢ Finset.range (l - 1),
            f (rc.1 * l + rc.2, rc.1 * l + rc.2 + 1))
        + (∑ rc ∈ Finset.range (l - 1) ×ˢ Finset.range l,
            f (rc.1 * l + rc.2, (rc.1 + 1) * l + rc.2)) := by
  have d : Disjoint
      ((Finset.range l ×ˢ Finset.range (l - 1)).image
        (fun rc => (rc.1 * l + rc.2, rc.1 * l + rc.2 + 1)))
      ((Finset.range (l - 1) ×ˢ Finset.range l).image
        (fun rc => (rc.1 * l + rc.2, (rc.1 + 1) * l + rc.2))) := by
    rw [Finset.disjoint_left]
    intro p hp hq
    rw [Finset.mem_image] at hp hq
    obtain ⟨rc, hrc, rfl⟩ := hp
    obtain ⟨rc2, hrc2, h2⟩ := hq
    rw [Finset.mem_product, Finset.mem_range, Finset.mem_range] at hrc
    have e1 := (Prod.ext_iff.mp h2).1
    have e2 := (Prod.ext_iff.mp h2).2
    dsimp only at e1 e2
    have e3 : (rc2.1 + 1) * l = rc2.1 * l + l := by ring
    omega
  have hinjHn : ∀ x ∈ Finset.range l ×ˢ Finset.range (l - 1),
      ∀ y ∈ Finset.range l ×ˢ Finset.range (l - 1),
      (fun rc : ℕ × ℕ => (rc.1 * l + rc.2, rc.1 * l + rc.2 + 1)) x
        = (fun rc : ℕ × ℕ => (rc.1 * l + rc.2, rc.1 * l + rc.2 + 1)) y → x = y := by
    intro x hx y hy h
    rw [Finset.mem_product, Finset.mem_range, Finset.mem_range] at hx hy
    have h1 := (Prod.ext_iff.mp h).1
    dsimp only at h1
    have := rowcol_inj l x.1 x.2 y.1 y.2 (by omega) (by omega) h1
    exact Prod.ext this.1 this.2
  have hinjVn : ∀ x ∈ Finset.range (l - 1) ×ˢ Finset.range l,
      ∀ y ∈ Finset.range (l - 1) ×ˢ Finset.range l,
      (fun rc : ℕ × ℕ => (rc.1 * l + rc.2, (rc.1 + 1) * l + rc.2)) x
        = (fun rc : ℕ × ℕ => (rc.1 * l + rc.2, (rc.1 + 1) * l + rc.2)) y → x = y := by
    intro x hx y hy h
    rw [Finset.mem_product, Finset.mem_range, Finset.mem_range] at hx hy
    have h1 := (Prod.ext_iff.mp h).1
    dsimp only at h1
    have := rowcol_inj l x.1 x.2 y.1 y.2 hx.2 hy.2 h1
    exact Prod.ext this.1 this.2
  rw [show nnPairs2d l false
      = ((Finset.range l ×ˢ Finset.range (l - 1)).image
          (fun rc => (rc.1 * l + rc.2, rc.1 * l + rc.2 + 1)))
        ∪ ((Finset.range (l - 1) ×ˢ Finset.range l).image
          (fun rc => (rc.1 * l + rc.2, (rc.1 + 1) * l + rc.2))) from by
    unfold nnPairs2d
    simp only [Bool.false_eq_true, if_false, Finset.union_empty]]
  rw [Finset.sum_union d, Finset.sum_image hinjHn, Finset.sum_image hinjVn]

theorem heis2d_diag_spec (l : ℕ) (pbc : Bool) (jz : ℝ) (s : ℕ → ℤ)
    (h2 : pbc = true → 3 ≤ l) :
    heis2dDiag ((l : ℤ) * l) l pbc jz s = specDiag2d l pbc jz s := by
  cases pbc with
  | true =>
    have hl := h2 rfl
    rw [heis2dDiag_sum]
    unfold specDiag2d
    congr 1
    rw [Finset.sum_congr rfl (fun i hi =>
      inner_pbc l hl (fun p => ((s p.1 * s p.2 : ℤ) : ℂ)) i (Finset.mem_range.mp hi))]
    rw [Finset.sum_add_distrib, Finset.sum_add_distrib, Finset.sum_add_distrib,
      sum_wrapH l hl (fun p => ((s p.1 * s p.2 : ℤ) : ℂ)),
      sum_normH l (fun p => ((s p.1 * s p.2 : ℤ) : ℂ)),
      sum_wrapV l hl (fun p => ((s p.1 * s p.2 : ℤ) : ℂ)),
      sum_normV l (fun p => ((s p.1 * s p.2 : ℤ) : ℂ)),
      sum_nnPairs2d_pbc l hl (fun p => ((s p.1 * s p.2 : ℤ) : ℂ))]
    ring
  | false =>
    rw [heis2dDiag_sum]
    unfold specDiag2d
    congr 1
    rw [Finset.sum_congr rfl (fun i hi =>
      inner_open l (fun p => ((s p.1 * s p.2 : ℤ) : ℂ)) i (Finset.mem_range.mp hi))]
    rw [Finset.sum_add_distrib,
      sum_normH l (fun p => ((s p.1 * s p.2 : ℤ) : ℂ)),
      sum_normV l (fun p => ((s p.1 * s p.2 : ℤ) : ℂ)),
      sum_nnPairs2d_open l (fun p => ((s p.1 * s p.2 : ℤ) : ℂ))]

/-- Claim C6 (amended): for every configuration, the diagonal element
returned by `FindConn` of either Heisenberg variant equals `Jz` times the
sum of `state[i]·state[j]` over the undirected nearest-neighbor pairs, each
counted exactly once, provided each periodic direction has at least 3 sites
(1D periodic: `nspins ≥ 3`; 2D periodic: `l ≥ 3`) or the boundary is open;
a periodic ring of two sites counts its single pair twice
(`C6_counterexample`). -/
theorem C6_heisenberg_diagonal (ns l : ℕ) (jz1 jz2 : ℝ) (pbc1 pbc2 : Bool)
    (s t : ℕ → ℤ) (h1 : pbc1 = true → 3 ≤ ns) (h2 : pbc2 = true → 3 ≤ l) :
    heis1dDiag ns jz1 pbc1 s = specDiag1d ns jz1 pbc1 s ∧
      heis2dDiag ((l : ℤ) * l) l pbc2 jz2 t = specDiag2d l pbc2 jz2 t :=
  ⟨heis1d_diag_spec ns jz1 pbc1 s h1, heis2d_diag_spec l pbc2 jz2 t h2⟩

theorem C6_witness :
    ((true = true → 3 ≤ 3) ∧ (true = true → 3 ≤ 3)) ∧
      (heis1dDiag 3 1 true stateW = specDiag1d 3 1 true stateW ∧
        heis2dDiag ((3 : ℤ) * 3) 3 true 1 stateW = specDiag2d 3 true 1 stateW) :=
  ⟨⟨by decide, by decide⟩,
    C6_heisenberg_diagonal 3 3 1 1 true true stateW stateW (by decide) (by decide)⟩

end QANN
